import Mathlib

/-!
# Verification of RepoTool's markdown render / restore core

Shallow embedding of `RepoTool.py`: the serializer `render_markdown`
(lines 183-217), the section regexes `FILE_SECTION_RE`, `FENCE_START_RE`,
`FENCE_END_RE` (lines 219-221) and the parser/writer `restore_from_markdown`
(lines 223-250), together with the helpers they use (`build_tree`,
`detect_language_tag`, `pathlib` path joining).

Strings are modelled as `List Char` internally (`String` at the API
boundary).  Python's `str.splitlines`, `str.strip`, `str.rstrip` and the
`re` patterns are translated character-for-character; comments on each
definition name the source construct it embeds.
-/

/-- The characters Python's `str.splitlines` treats as line breaks
(`\n`, `\r`, `\v`, `\f`, FS, GS, RS, NEL, LINE SEPARATOR, PARAGRAPH
SEPARATOR); `\r\n` is handled as a single break by `pySplitlines` below. -/
def isLineBreak (c : Char) : Bool :=
  c = '\n' || c = '\r' || c = '\x0b' || c = '\x0c' ||
  c = '\x1c' || c = '\x1d' || c = '\x1e' || c = '\x85' ||
  c = ' ' || c = ' '

/-- Python whitespace, as matched by `\s` in `re` patterns over `str` and
stripped by `str.strip()` / `str.rstrip()` (the sets coincide on every
character this development manipulates). -/
def isPySpace (c : Char) : Bool :=
  c = ' ' || c = '\t' || c = '\n' || c = '\r' || c = '\x0b' || c = '\x0c' ||
  c = '\x1c' || c = '\x1d' || c = '\x1e' || c = '\x1f' || c = '\x85' ||
  c = '\xa0' || c = ' ' ||
  (' ' ≤ c && c ≤ ' ') ||
  c = ' ' || c = ' ' || c = ' ' || c = ' ' || c = '　'

/-- Characters allowed in the language tag of `FENCE_START_RE`
(`[a-zA-Z0-9_-]`). -/
def isTagChar (c : Char) : Bool :=
  ('a' ≤ c && c ≤ 'z') || ('A' ≤ c && c ≤ 'Z') ||
  ('0' ≤ c && c ≤ '9') || c = '_' || c = '-'

/-- Decomposition of a string into the lines separated by `'\n'`:
the line structure that `re.MULTILINE` anchors (`^`, `$`) induce when
`FILE_SECTION_RE` is scanned over the document (a trailing newline yields
a final empty line). -/
def linesNl : List Char → List (List Char)
  | [] => [[]]
  | c :: rest =>
    if c = '\n' then [] :: linesNl rest
    else
      match linesNl rest with
      | [] => [[c]]
      | l :: ls => (c :: l) :: ls

/-- `"\n".join(...)` on a list of lines (Python `str.join`). -/
def nlJoin : List (List Char) → List Char
  | [] => []
  | [l] => l
  | l :: l' :: ls => l ++ '\n' :: nlJoin (l' :: ls)

/-- Concatenation of lines with `'\n'` appended after every line: the shape
of the document slice strictly between two `FILE_SECTION_RE` matches. -/
def joinLF (ls : List (List Char)) : List Char :=
  ls.flatMap (fun l => l ++ ['\n'])

/-- Worker for `pySplitlines`; `acc` holds the current line reversed.
A `'\r'` immediately followed by `'\n'` counts as a single break.  At
least one character is consumed per step, so the fuel `cs.length` that
`splitGo` supplies always suffices (`splitGoF_eq` below). -/
def splitGoF : Nat → List Char → List Char → List (List Char)
  | 0, _, acc => [acc.reverse]
  | _ + 1, [], acc => [acc.reverse]
  | fuel + 1, c :: rest, acc =>
    if c = '\r' && rest.head? = some '\n' then
      acc.reverse :: (if rest.tail = [] then [] else splitGoF fuel rest.tail [])
    else if isLineBreak c then
      acc.reverse :: (if rest = [] then [] else splitGoF fuel rest [])
    else splitGoF fuel rest (c :: acc)

/-- The `splitlines` worker at its canonical fuel. -/
def splitGo (cs acc : List Char) : List (List Char) :=
  splitGoF cs.length cs acc

/-- Python `str.splitlines()`: splits at every line-break character,
treating `"\r\n"` as one break, with no trailing empty line for a
terminal break (`"".splitlines() == []`, `"a\n".splitlines() == ["a"]`). -/
def pySplitlines (cs : List Char) : List (List Char) :=
  if cs = [] then [] else splitGo cs []

/-- A line free of every `splitlines` break character. -/
def noBreakL (l : List Char) : Prop := ∀ c ∈ l, isLineBreak c = false

instance (l : List Char) : Decidable (noBreakL l) := by
  unfold noBreakL; infer_instance

/-- Python `str.strip()` (no arguments): drop whitespace at both ends. -/
def stripChars (l : List Char) : List Char :=
  ((l.dropWhile isPySpace).reverse.dropWhile isPySpace).reverse

/-- Python `str.rstrip()` (no arguments): drop trailing whitespace. -/
def pyRstrip (l : List Char) : List Char :=
  (l.reverse.dropWhile isPySpace).reverse

/-- Split on `'/'` keeping empty segments (the first step of
`pathlib.PurePath` parsing of a POSIX-style path string). -/
def splitSlash : List Char → List (List Char)
  | [] => [[]]
  | c :: rest =>
    if c = '/' then [] :: splitSlash rest
    else
      match splitSlash rest with
      | [] => [[c]]
      | l :: ls => (c :: l) :: ls

/-- `FILE_SECTION_RE = re.compile(r"^##\s+File:\s+(.+)$", re.MULTILINE)`
applied to one document line (a `'\n'`-free string), returning
`m.group(1).strip()` when the line matches, as `restore_from_markdown`
line 226 consumes it (`Path(m.group(1).strip())`).  `group(1)` is the
rest of the line after `File:` with some whitespace prefix removed, so
`group(1).strip()` equals `strip` of that rest. -/
def headerPath (l : List Char) : Option (List Char) :=
  if l.take 2 ≠ ['#', '#'] then none else
  let r1 := (l.drop 2).dropWhile isPySpace
  if (l.drop 2).length = r1.length then none else
  if r1.take 5 ≠ ['F', 'i', 'l', 'e', ':'] then none else
  match r1.drop 5 with
  | c1 :: _ :: _ => if isPySpace c1 then some (stripChars (r1.drop 5)) else none
  | _ => none

/-- `FENCE_START_RE = re.compile(r"^```[a-zA-Z0-9_-]*\s*$")`, applied with
`re.match` to one line produced by `splitlines`. -/
def isFenceStart (l : List Char) : Bool :=
  l.take 3 = ['`', '`', '`'] && ((l.drop 3).dropWhile isTagChar).all isPySpace

/-- `FENCE_END_RE = re.compile(r"^```\s*$")`, applied with `re.match` to one
line produced by `splitlines`. -/
def isFenceEnd (l : List Char) : Bool :=
  l.take 3 = ['`', '`', '`'] && (l.drop 3).all isPySpace

/-- The fence-scanning loop of `restore_from_markdown` (lines 233-241):
before the first `FENCE_START_RE` line every line is skipped; afterwards
lines are collected until the first `FENCE_END_RE` line (or end of the
section).  Returns `content_lines`. -/
def scanFence : List (List Char) → Bool → List (List Char)
  | [], _ => []
  | ln :: rest, inFence =>
    if !inFence && isFenceStart ln then scanFence rest true
    else if inFence && isFenceEnd ln then []
    else if inFence then ln :: scanFence rest true
    else scanFence rest false

/-- Lines 231-242 of `restore_from_markdown` applied to one section slice:
`section.splitlines()`, the fence scan, and `"\n".join(content_lines)`. -/
def extractContent (sectionChars : List Char) : List Char :=
  nlJoin (scanFence (pySplitlines sectionChars) false)

/-- The scan-then-slice loop of `restore_from_markdown` (lines 224-242),
phrased over the `'\n'`-line decomposition of the document.  Walking the
lines in order, each `FILE_SECTION_RE` match `m` contributes one entry:

* `sec` is the list of lines strictly between the header line and the
  next header line (or end of document): `md_text[m.end() : end]` is the
  newline terminating the header line followed by each of those lines,
  each line followed by its `'\n'` separator except that the document's
  final line has no trailing `'\n'` — precisely `'\n' :: joinLF sec` for
  an inner section and `'\n' :: nlJoin sec` (or `[]` when nothing
  follows) for the final section;
* the entry is `(Path(m.group(1).strip())`-string, extracted content).
-/
def parseLinesLC : List (List Char) → List (List Char × List Char)
  | [] => []
  | l :: rest =>
    match headerPath l with
    | none => parseLinesLC rest
    | some p =>
      let sec := rest.takeWhile (fun l2 => (headerPath l2).isNone)
      let sectionChars : List Char :=
        if sec.length = rest.length then
          if sec = [] then [] else '\n' :: nlJoin sec
        else '\n' :: joinLF sec
      (p, extractContent sectionChars) :: parseLinesLC rest

/-- The pure parsing part of `restore_from_markdown` on a raw document. -/
def parseDocLC (cs : List Char) : List (List Char × List Char) :=
  parseLinesLC (linesNl cs)

/-- `parse(text) -> ordered sequence of (relative_path, content)`:
the entries `restore_from_markdown` reconstructs from `md_text`, in
document order, before any filesystem write. -/
def parseDocument (md : String) : List (String × String) :=
  (parseDocLC md.data).map (fun pc => (⟨pc.1⟩, ⟨pc.2⟩))

/-- A `pathlib` pure path (POSIX flavour): the anchor flag and the parsed
parts.  `PurePosixPath` drops empty and `"."` segments and keeps `".."`. -/
structure PyPath where
  absolute : Bool
  parts : List String
  deriving DecidableEq

/-- `pathlib.Path(s)` parsing (POSIX flavour) over raw characters. -/
def pyPathLC (l : List Char) : PyPath :=
  ⟨l.head? = some '/',
   ((splitSlash l).filter (fun s => s ≠ [] ∧ s ≠ ['.'])).map (fun s => ⟨s⟩)⟩

/-- `pathlib.Path(s)`. -/
def pyPath (s : String) : PyPath := pyPathLC s.data

/-- `base / rel` on `pathlib` paths: an absolute `rel` replaces `base`,
otherwise the parts are concatenated (line 244, `out_dir / rel`). -/
def pyJoin (base rel : PyPath) : PyPath :=
  if rel.absolute then rel else ⟨base.absolute, base.parts ++ rel.parts⟩

/-- Resolution of `".."` segments by the operating system when a path is
opened (no symlinks): `".."` pops the last segment, at the filesystem
root it is a no-op.  This models what the OS does with the path the code
passes to `open`; the code itself performs no such normalisation. -/
def resolveDots : List String → List String → List String
  | stack, [] => stack.reverse
  | stack, ".." :: r =>
    match stack with
    | [] => resolveDots [] r
    | _ :: st => resolveDots st r
  | stack, seg :: r => resolveDots (seg :: stack) r

/-- Whether the file named by `target` (after the OS resolves `".."`)
lies inside the directory tree rooted at `root`. -/
def underRoot (root target : List String) : Bool :=
  root.isPrefixOf (resolveDots [] target)

/-- The destination filesystem, a map from paths to file contents.
Directory creation (`mkdir(parents=True, exist_ok=True)`, line 245) has
no effect on file contents and is not modelled. -/
def FS : Type := PyPath → Option String

/-- Outcome oracle for the two write attempts of lines 246-250:
`writeTextOk` decides whether `target_path.write_text(...)` succeeds and
`fallbackOk` whether the `open(..., errors="replace")` retry in the
`except` clause succeeds.  (For valid-Unicode content the retry writes
the same text, so both attempts store the same string.) -/
structure WriteOracle where
  writeTextOk : PyPath → Bool
  fallbackOk : PyPath → Bool

/-- The oracle under which every write succeeds. -/
def allOk : WriteOracle := ⟨fun _ => true, fun _ => true⟩

/-- `target_path.write_text(content)` / the fallback write: stores the
content, overwriting unconditionally. -/
def fsWrite (fs : FS) (p : PyPath) (c : String) : FS :=
  fun q => if q = p then some c else fs q

/-- The write loop of `restore_from_markdown` (lines 244-250) over the
parsed entries.  Each entry is written to `out_dir / rel`; if
`write_text` raises, the `except` clause retries once; if the retry also
raises, the exception propagates out of the loop, so the remaining
entries are never processed — the `Bool` records that abort. -/
def restoreGo (ora : WriteOracle) (out : PyPath) :
    List (List Char × List Char) → FS → FS × Bool
  | [], fs => (fs, false)
  | (rel, c) :: rest, fs =>
    let target := pyJoin out (pyPathLC rel)
    if ora.writeTextOk target then restoreGo ora out rest (fsWrite fs target ⟨c⟩)
    else if ora.fallbackOk target then restoreGo ora out rest (fsWrite fs target ⟨c⟩)
    else (fs, true)

/-- `restore_from_markdown(md_text, out_dir)` (lines 223-250): parse the
document and write each reconstructed entry in document order. -/
def restoreFromMarkdown (ora : WriteOracle) (md : String) (out : PyPath)
    (fs0 : FS) : FS × Bool :=
  restoreGo ora out (parseDocLC md.data) fs0

/-- The write target of an entry: `out_dir / Path(rel)` (line 244). -/
def targetOf (out : PyPath) (rel : List Char) : PyPath :=
  pyJoin out (pyPathLC rel)

/-- ASCII lowering, as `str.lower()` acts on ASCII.  (`detect_language_tag`
looks the lowered extension up in a table whose keys are ASCII, so a
non-ASCII extension misses the table whether lowered the Python way or
this way.) -/
def toLowerAsciiChar (c : Char) : Char :=
  if 'A' ≤ c && c ≤ 'Z' then Char.ofNat (c.toNat + 32) else c

/-- `PurePath.suffix` of a file name (CPython: the part of the name from
its last dot, unless that dot is the first or last character). -/
def pySuffixOf (name : List Char) : List Char :=
  let rev := name.reverse
  let ext := rev.takeWhile (fun c => c ≠ '.')
  if ext.length = rev.length then []
  else if ext.length = 0 then []
  else if ext.length + 1 = rev.length then []
  else '.' :: ext.reverse

/-- The extension table of `detect_language_tag` (lines 95-102). -/
def langMapping : List (String × String) :=
  [(".py", "python"), (".js", "javascript"), (".jsx", "jsx"),
   (".ts", "typescript"), (".tsx", "tsx"),
   (".json", "json"), (".yaml", "yaml"), (".yml", "yaml"),
   (".toml", "toml"), (".ini", "ini"),
   (".md", "markdown"), (".html", "html"), (".css", "css"),
   (".sh", "bash"), (".ps1", "powershell"),
   (".bat", "bat"), (".cmd", "bat"), (".xml", "xml"), (".sql", "sql"),
   (".vue", "vue"), (".svelte", "svelte"),
   (".java", "java"), (".kt", "kotlin"), (".cs", "csharp"),
   (".go", "go"), (".rs", "rust"),
   (".c", "c"), (".h", "c"), (".cpp", "cpp"), (".hpp", "cpp")]

/-- `detect_language_tag(path)` (lines 93-103): `mapping.get(ext, "")`
for `ext = path.suffix.lower()`, with the suffix taken from the path's
last component. -/
def detectLanguageTag (rel : List Char) : List Char :=
  let name := ((pyPathLC rel).parts.getLastD "").data
  ((langMapping.lookup ⟨(pySuffixOf name).map toLowerAsciiChar⟩).getD "").data

/-- Insert `x` after every element `y` with `le y x`: one step of a
stable insertion giving Python's stable `sorted(..., key=...)`. -/
def insertAfterLe (le : α → α → Bool) (x : α) : List α → List α
  | [] => [x]
  | y :: ys => if le y x then y :: insertAfterLe le x ys else x :: y :: ys

/-- Python `sorted(l, key=...)` for the total preorder `le`
(stable: elements with equal keys keep their input order). -/
def sortStable (le : α → α → Bool) (l : List α) : List α :=
  l.foldl (fun acc x => insertAfterLe le x acc) []

/-- `key=lambda p: p.name.lower()` (lines 153-154), compared as Python
compares strings (lexicographically by code point). -/
def leNameLower (a b : List String) : Bool :=
  decide ((⟨(a.getLastD "").data.map toLowerAsciiChar⟩ : String) ≤
          ⟨(b.getLastD "").data.map toLowerAsciiChar⟩)

/-- The `while True` loop of `build_tree` (lines 144-150): the chain of
ancestors of `p` from `p` itself down to `root`.  The Python loop would
not terminate if `root` were not an ancestor; the fuel caps the descent
in that (unused) case. -/
def ancestorGo (root : List String) : Nat → List String → List (List String)
  | 0, _ => []
  | n + 1, q => q :: (if q = root then [] else ancestorGo root n q.dropLast)

/-- Ancestors of `p` down to `root` (`p.length + 1` fuel always suffices
since `dropLast` shortens the path). -/
def ancestorChain (root p : List String) : List (List String) :=
  ancestorGo root (p.length + 1) p

/-- `all_dirs` of `build_tree` (lines 142-150): every directory on the
way from a file's parent down to the root, as a set (first occurrences
kept; the set is only consumed through filtering and sorting). -/
def allDirsOf (root : List String) (files : List (List String)) :
    List (List String) :=
  (files.flatMap (fun f => ancestorChain root f.dropLast)).dedup

/-- `'└── '` / `'├── '` (line 161). -/
def branchMark (lst : Bool) : List Char :=
  if lst then "└── ".data else "├── ".data

/-- `'    '` / `'│   '` (line 162). -/
def contMark (lst : Bool) : List Char :=
  if lst then "    ".data else "│   ".data

/-- `Path.name`: the last part (empty for the empty path). -/
def nameOfParts (p : List String) : List Char :=
  (p.getLastD "").data

/-- The file loop of `walk` (lines 163-165): `'└── '` for the last file,
`'├── '` otherwise. -/
def walkLeafs : List (List String) → List Char → List (List Char)
  | [], _ => []
  | [lf], pfx => [pfx ++ branchMark true ++ nameOfParts lf]
  | lf :: lf' :: lfs, pfx =>
    (pfx ++ branchMark false ++ nameOfParts lf) :: walkLeafs (lf' :: lfs) pfx

/-- The subdirectory loop of `walk` (lines 159-162), parametrised by the
recursive call into a subdirectory: every subdirectory but the last
prints `'├── '` and continues with `'│   '`; the last prints `'└── '`
and continues with `'    '` exactly when there are no files in the
directory (`last = (i == len(subdirs)-1 and not leafs)`). -/
def walkSubsWith (rec : List String → List Char → List (List Char)) :
    List (List String) → Bool → List Char → List (List Char)
  | [], _, _ => []
  | [sd], leafsEmpty, pfx =>
    (pfx ++ branchMark leafsEmpty ++ nameOfParts sd ++ ['/']) ::
      rec sd (pfx ++ contMark leafsEmpty)
  | sd :: sd' :: sds, leafsEmpty, pfx =>
    ((pfx ++ branchMark false ++ nameOfParts sd ++ ['/']) ::
      rec sd (pfx ++ contMark false)) ++
      walkSubsWith rec (sd' :: sds) leafsEmpty pfx

/-- `walk(d, prefix, lines)` of `build_tree` (lines 157-165): the lines
appended for directory `d`.  `children(d)` sorts the subdirectories of
`d` found in `all_dirs` and the files whose parent is `d`, each by
lowered name.  The fuel bounds the directory depth, which the recursion
never outruns (each level descends into strictly longer paths). -/
def walkTree (allDirs files : List (List String)) :
    Nat → List String → List Char → List (List Char)
  | 0, _, _ => []
  | fuel + 1, d, pfx =>
    let subdirs := sortStable leNameLower (allDirs.filter (fun p => p.dropLast = d))
    let leafs := sortStable leNameLower (files.filter (fun f => f.dropLast = d))
    walkSubsWith (fun sd p2 => walkTree allDirs files fuel sd p2) subdirs
      leafs.isEmpty pfx ++ walkLeafs leafs pfx

/-- `build_tree(root, files)` (lines 136-169): the fenced structure
listing.  `files` are absolute paths (root parts followed by the
relative parts); the fuel exceeds the deepest directory, which the
recursion never outruns. -/
def buildTree (rootParts : List String) (files : List (List String)) :
    List Char :=
  let allDirs := allDirsOf rootParts files
  let fuel := (allDirs.map List.length).foldl max 0 + 1
  let treeLines := (nameOfParts rootParts ++ ['/']) ::
    walkTree allDirs files fuel rootParts []
  "```text\n".data ++ nlJoin treeLines ++ "\n```".data

/-- `HR = "\n---\n"` (line 65). -/
def HRChars : List Char := "\n---\n".data

/-- The note emitted with the binary-assets section (line 214). -/
def binNote : List Char :=
  "См. рядом лежащий архив `assets.zip` с нетекстовыми файлами проекта.".data

/-- One gathered file as the serializer consumes it: `rel` is
`path.relative_to(root).as_posix()`, `content` the result of
`read_text_best_effort(path)` and `isText` that of
`is_probably_text(path)` (the collaborators of §6 of the format
specification). -/
structure FileEntry where
  rel : String
  content : String
  isText : Bool

/-- The five lines-list elements `render_markdown` appends for one text
entry (lines 195-202): header (with its own trailing newline), opening
fence `f"```{lang}".rstrip()`, raw content, closing fence, `HR`. -/
def fileSection (e : FileEntry) : List (List Char) :=
  ["## File: ".data ++ e.rel.data ++ ['\n'],
   pyRstrip ("```".data ++ detectLanguageTag e.rel.data),
   e.content.data,
   "```".data,
   HRChars]

/-- The `lines` list of `render_markdown` (lines 183-215): title,
structure section, and one file section per text entry; binary entries
are skipped and, with `zip_binaries` set and at least one binary, a
binary-assets note is appended. -/
def renderElems (rootParts : List String) (files : List FileEntry)
    (zipBinaries : Bool) : List (List Char) :=
  let fileAbs := files.map (fun e => rootParts ++ (pyPath e.rel).parts)
  ["# Project: ".data ++ nameOfParts rootParts ++ ['\n'],
   "## Structure".data,
   buildTree rootParts fileAbs,
   HRChars]
  ++ files.flatMap (fun e => if e.isText then fileSection e else [])
  ++ (if zipBinaries && files.any (fun e => !e.isText) then
        ["## Binary assets\n".data, binNote, HRChars] else [])

/-- `render_markdown` line 217: `"\n".join(lines).rstrip() + "\n"`. -/
def renderLC (rootParts : List String) (files : List FileEntry)
    (zipBinaries : Bool) : List Char :=
  pyRstrip (nlJoin (renderElems rootParts files zipBinaries)) ++ ['\n']

/-- `render(root_name, entries) -> text`: the markdown text produced by
`render_markdown` (its optional zip side channel carries no text). -/
def renderMarkdown (rootParts : List String) (files : List FileEntry)
    (zipBinaries : Bool) : String :=
  ⟨renderLC rootParts files zipBinaries⟩

/-- A document whose single header names a path with parent-directory
segments (test 6 of the format specification's testable properties). -/
def escapeDoc : String := "## File: ../../etc/passwd\n```\nsecret\n```\n"

/-- A destination root for exercising `restore_from_markdown`. -/
def outSrv : PyPath := ⟨true, ["srv", "data"]⟩

/-- A two-entry document for exercising the write loop. -/
def twoEntryDoc : String :=
  "## File: a.txt\n```\nx\n```\n\n---\n\n## File: b.txt\n```\ny\n```\n"

/-- A write oracle under which both write attempts fail exactly on
`/o/a.txt` (for example, a target whose name the filesystem rejects). -/
def failAOracle : WriteOracle :=
  ⟨fun t => decide (t ≠ ⟨true, ["o", "a.txt"]⟩),
   fun t => decide (t ≠ ⟨true, ["o", "a.txt"]⟩)⟩

/-- The empty destination filesystem. -/
def emptyFS : FS := fun _ => none

/-- The `'\n'`-line decomposition of one rendered text-file section:
header line, the blank line left by the header's embedded `'\n'`,
opening fence, the content's own lines, closing fence, and the lines
contributed by `HR`. -/
def secLines (e : FileEntry) : List (List Char) :=
  ["## File: ".data ++ e.rel.data, [],
   "```".data ++ detectLanguageTag e.rel.data]
  ++ linesNl e.content.data
  ++ ["```".data, [], "---".data, []]

/-- The `'\n'`-line decomposition of the document part before the first
file section: title, structure heading, the fenced tree, and the first
`HR`. -/
def preludeLines (rootParts : List String) (fileAbs : List (List String)) :
    List (List Char) :=
  ["# Project: ".data ++ nameOfParts rootParts, [],
   "## Structure".data, "```text".data]
  ++ ((nameOfParts rootParts ++ ['/']) ::
      walkTree (allDirsOf rootParts fileAbs) fileAbs
        (((allDirsOf rootParts fileAbs).map List.length).foldl max 0 + 1)
        rootParts [])
  ++ ["```".data, [], "---".data, []]

/-! ### Line decomposition lemmas -/

theorem linesNl_ne_nil (cs : List Char) : linesNl cs ≠ [] := by
  induction cs with
  | nil => simp [linesNl]
  | cons c rest ih =>
    unfold linesNl
    by_cases hc : c = '\n'
    · simp [hc]
    · simp only [if_neg hc]
      rcases h : linesNl rest with _ | ⟨l, ls⟩ <;> simp

theorem linesNl_append (xs ys : List Char) :
    linesNl (xs ++ '\n' :: ys) = linesNl xs ++ linesNl ys := by
  induction xs with
  | nil => simp [linesNl]
  | cons c rest ih =>
    by_cases hc : c = '\n'
    · subst hc
      simp [linesNl, ih]
    · simp only [List.cons_append, linesNl, if_neg hc]
      simp only [List.append_eq]
      rw [ih]
      rcases h : linesNl rest with _ | ⟨l, ls⟩
      · exact absurd h (linesNl_ne_nil rest)
      · simp [h]

theorem linesNl_of_not_mem_nl {l : List Char} (h : '\n' ∉ l) :
    linesNl l = [l] := by
  induction l with
  | nil => simp [linesNl]
  | cons c rest ih =>
    have hc : c ≠ '\n' := fun e => h (e ▸ List.mem_cons_self c rest)
    have hr : '\n' ∉ rest := fun m => h (List.mem_cons_of_mem c m)
    simp [linesNl, if_neg hc, ih hr]

theorem nlJoin_linesNl (cs : List Char) : nlJoin (linesNl cs) = cs := by
  induction cs with
  | nil => simp [linesNl, nlJoin]
  | cons c rest ih =>
    by_cases hc : c = '\n'
    · subst hc
      rcases h : linesNl rest with _ | ⟨l, ls⟩
      · exact absurd h (linesNl_ne_nil rest)
      · rw [linesNl] at *
        simp only [if_pos rfl, h, nlJoin]
        rw [h] at ih
        simp [nlJoin] at ih ⊢
        exact ih
    · rcases h : linesNl rest with _ | ⟨l, ls⟩
      · exact absurd h (linesNl_ne_nil rest)
      · rw [h] at ih
        unfold linesNl
        simp only [if_neg hc, h]
        rcases ls with _ | ⟨l', ls'⟩
        · simp [nlJoin] at ih ⊢
          simp [ih]
        · simp [nlJoin] at ih ⊢
          simp [ih]

theorem linesNl_nlJoin {L : List (List Char)} (hne : L ≠ [])
    (h : ∀ l ∈ L, '\n' ∉ l) : linesNl (nlJoin L) = L := by
  induction L with
  | nil => exact absurd rfl hne
  | cons l L' ih =>
    rcases L' with _ | ⟨l', L''⟩
    · simp [nlJoin, linesNl_of_not_mem_nl (h l (by simp))]
    · have : nlJoin (l :: l' :: L'') = l ++ '\n' :: nlJoin (l' :: L'') := rfl
      rw [this, linesNl_append, linesNl_of_not_mem_nl (h l (by simp)),
        ih (by simp) (fun x hx => h x (List.mem_cons_of_mem l hx))]
      simp

theorem nlJoin_append_single {L : List (List Char)} (hne : L ≠ []) (x : List Char) :
    nlJoin (L ++ [x]) = nlJoin L ++ '\n' :: x := by
  induction L with
  | nil => exact absurd rfl hne
  | cons l L' ih =>
    rcases L' with _ | ⟨l', L''⟩
    · simp [nlJoin]
    · have h1 : nlJoin ((l :: l' :: L'') ++ [x]) =
        l ++ '\n' :: nlJoin ((l' :: L'') ++ [x]) := rfl
      have h2 : nlJoin (l :: l' :: L'') = l ++ '\n' :: nlJoin (l' :: L'') := rfl
      rw [h1, h2, ih (by simp)]
      simp

theorem joinLF_eq_nlJoin {L : List (List Char)} (hne : L ≠ []) :
    joinLF L = nlJoin L ++ ['\n'] := by
  induction L with
  | nil => exact absurd rfl hne
  | cons l L' ih =>
    rcases L' with _ | ⟨l', L''⟩
    · simp [joinLF, nlJoin]
    · have h1 : joinLF (l :: l' :: L'') = (l ++ ['\n']) ++ joinLF (l' :: L'') := by
        simp [joinLF]
      have h2 : nlJoin (l :: l' :: L'') = l ++ '\n' :: nlJoin (l' :: L'') := rfl
      rw [h1, h2, ih (by simp)]
      simp

theorem linesNl_nlJoin_flat {E : List (List Char)} (hne : E ≠ []) :
    linesNl (nlJoin E) = E.flatMap linesNl := by
  induction E with
  | nil => exact absurd rfl hne
  | cons A E' ih =>
    rcases E' with _ | ⟨B, E''⟩
    · simp [nlJoin]
    · have h2 : nlJoin (A :: B :: E'') = A ++ '\n' :: nlJoin (B :: E'') := rfl
      rw [h2, linesNl_append, ih (by simp)]
      simp

/-! ### `splitlines` lemmas -/

theorem splitGoF_eq : ∀ (f : Nat) (cs acc : List Char), cs.length ≤ f →
    splitGoF f cs acc = splitGo cs acc := by
  intro f
  induction f using Nat.strong_induction_on with
  | _ f ih =>
    intro cs acc hlen
    rcases f with _ | f
    · have : cs = [] := List.length_eq_zero.mp (Nat.le_zero.mp hlen)
      subst this; rfl
    · rcases cs with _ | ⟨c, rest⟩
      · rfl
      · show splitGoF (f + 1) (c :: rest) acc = splitGoF (rest.length + 1) (c :: rest) acc
        have hr : rest.length ≤ f := by
          simpa using hlen
        simp only [splitGoF]
        by_cases h1 : (c = '\r' && rest.head? = some '\n') = true
        · rw [if_pos h1, if_pos h1]
          by_cases h2 : rest.tail = []
          · rw [if_pos h2, if_pos h2]
          · rw [if_neg h2, if_neg h2,
              ih f (Nat.lt_succ_self f) rest.tail []
                (le_trans (by cases rest <;> simp) hr),
              ih rest.length (Nat.lt_succ_of_le hr) rest.tail []
                (by cases rest <;> simp)]
        · rw [if_neg h1, if_neg h1]
          by_cases h2 : isLineBreak c = true
          · rw [if_pos h2, if_pos h2]
            by_cases h3 : rest = []
            · rw [if_pos h3, if_pos h3]
            · rw [if_neg h3, if_neg h3, ih f (Nat.lt_succ_self f) rest [] hr,
                ih rest.length (Nat.lt_succ_of_le hr) rest [] le_rfl]
          · rw [if_neg h2, if_neg h2, ih f (Nat.lt_succ_self f) rest (c :: acc) hr,
              ih rest.length (Nat.lt_succ_of_le hr) rest (c :: acc) le_rfl]

theorem splitGo_nil (acc : List Char) : splitGo [] acc = [acc.reverse] := rfl

theorem splitGo_cons (c : Char) (rest acc : List Char) :
    splitGo (c :: rest) acc =
      if c = '\r' && rest.head? = some '\n' then
        acc.reverse :: (if rest.tail = [] then [] else splitGo rest.tail [])
      else if isLineBreak c then
        acc.reverse :: (if rest = [] then [] else splitGo rest [])
      else splitGo rest (c :: acc) := by
  show splitGoF (rest.length + 1) (c :: rest) acc = _
  simp only [splitGoF]
  by_cases h1 : (c = '\r' && rest.head? = some '\n') = true
  · rw [if_pos h1, if_pos h1]
    by_cases h2 : rest.tail = []
    · rw [if_pos h2, if_pos h2]
    · rw [if_neg h2, if_neg h2, splitGoF_eq rest.length rest.tail []
        (by cases rest <;> simp)]
  · rw [if_neg h1, if_neg h1]
    rfl

theorem splitGo_cons_nonbreak {c : Char} (hc : isLineBreak c = false)
    (rest acc : List Char) : splitGo (c :: rest) acc = splitGo rest (c :: acc) := by
  have hcr : c ≠ '\r' := by rintro rfl; simp [isLineBreak] at hc
  rw [splitGo_cons]
  simp [hcr, hc]

theorem splitGo_of_noBreak {l : List Char} (h : noBreakL l) (acc : List Char) :
    splitGo l acc = [acc.reverse ++ l] := by
  induction l generalizing acc with
  | nil => simp [splitGo_nil]
  | cons c rest ih =>
    rw [splitGo_cons_nonbreak (h c (by simp)),
      ih (fun x hx => h x (List.mem_cons_of_mem c hx))]
    simp

theorem splitGo_append_nl {l : List Char} (h : noBreakL l) (rest acc : List Char) :
    splitGo (l ++ '\n' :: rest) acc = (acc.reverse ++ l) :: pySplitlines rest := by
  induction l generalizing acc with
  | nil =>
    rw [List.nil_append, splitGo_cons, if_neg (by simp), if_pos (by simp [isLineBreak]),
      pySplitlines]
    by_cases h2 : rest = [] <;> simp [h2]
  | cons c rest' ih =>
    rw [List.cons_append, splitGo_cons_nonbreak (h c (by simp)),
      ih (fun x hx => h x (List.mem_cons_of_mem c hx))]
    simp

theorem pySplitlines_joinLF {L : List (List Char)} (h : ∀ l ∈ L, noBreakL l) :
    pySplitlines (joinLF L) = L := by
  induction L with
  | nil => simp [joinLF, pySplitlines]
  | cons l L' ih =>
    have hl : joinLF (l :: L') = l ++ '\n' :: joinLF L' := by simp [joinLF]
    rw [hl, pySplitlines, if_neg (by simp), splitGo_append_nl (h l (by simp))]
    simp [ih (fun x hx => h x (List.mem_cons_of_mem l hx))]

theorem pySplitlines_cons_nl_joinLF {L : List (List Char)}
    (h : ∀ l ∈ L, noBreakL l) :
    pySplitlines ('\n' :: joinLF L) = [] :: L := by
  have : '\n' :: joinLF L = [] ++ '\n' :: joinLF L := rfl
  rw [this, pySplitlines, if_neg (by simp), splitGo_append_nl (by intro c hc; simp at hc)]
  simp [pySplitlines_joinLF h]

theorem pySplitlines_nlJoin {L : List (List Char)} (hne : L ≠ [])
    (h : ∀ l ∈ L, noBreakL l) :
    pySplitlines (nlJoin L) =
      if L.getLast? = some [] then L.dropLast else L := by
  induction L with
  | nil => exact absurd rfl hne
  | cons l L' ih =>
    rcases L' with _ | ⟨l', L''⟩
    · show pySplitlines l = _
      rcases hl : l with _ | ⟨c, cs⟩
      · simp [pySplitlines]
      · rw [pySplitlines, if_neg (by simp),
          splitGo_of_noBreak (by rw [← hl]; exact h l (by simp))]
        simp
    · have h2 : nlJoin (l :: l' :: L'') = l ++ '\n' :: nlJoin (l' :: L'') := rfl
      rw [h2, pySplitlines, if_neg (by simp), splitGo_append_nl (h l (by simp)),
        ih (by simp) (fun x hx => h x (List.mem_cons_of_mem l hx))]
      by_cases hlast : (l' :: L'').getLast? = some ([] : List Char)
      · rw [if_pos hlast, if_pos (by rwa [List.getLast?_cons_cons])]
        simp
      · rw [if_neg hlast, if_neg (by rwa [List.getLast?_cons_cons])]
        simp

theorem mem_splitGo_noBreak_aux :
    ∀ (n : Nat) (cs : List Char), cs.length ≤ n → ∀ (acc : List Char),
    (∀ c ∈ acc, isLineBreak c = false) → ∀ l ∈ splitGo cs acc, noBreakL l := by
  intro n
  induction n with
  | zero =>
    intro cs hlen acc hacc l hl
    have : cs = [] := List.length_eq_zero.mp (Nat.le_zero.mp hlen)
    subst this
    simp [splitGo_nil] at hl
    subst hl
    intro c hc
    exact hacc c (by simpa using hc)
  | succ n ih =>
    intro cs hlen acc hacc l hl
    rcases cs with _ | ⟨c, rest⟩
    · simp [splitGo_nil] at hl
      subst hl
      intro c hc
      exact hacc c (by simpa using hc)
    · rw [splitGo_cons] at hl
      by_cases h1 : c = '\r' ∧ rest.head? = some '\n'
      · rw [if_pos (by simp [h1.1, h1.2])] at hl
        rcases List.mem_cons.mp hl with hl | hl
        · subst hl
          intro x hx
          exact hacc x (by simpa using hx)
        · by_cases h2 : rest.tail = []
          · rw [if_pos h2] at hl; simp at hl
          · rw [if_neg h2] at hl
            refine ih rest.tail ?_ [] (by simp) l hl
            have htl : rest.tail.length ≤ rest.length := by
              cases rest <;> simp
            simp at hlen
            omega
      · have hcond : ¬ ((c = '\r' && rest.head? = some '\n') = true) := by
          simp only [Bool.and_eq_true, decide_eq_true_eq]
          exact fun hb => h1 hb
        rw [if_neg hcond] at hl
        by_cases hb : isLineBreak c
        · rw [if_pos hb] at hl
          rcases List.mem_cons.mp hl with hl | hl
          · subst hl
            intro x hx
            exact hacc x (by simpa using hx)
          · by_cases h2 : rest = []
            · rw [if_pos h2] at hl; simp at hl
            · rw [if_neg h2] at hl
              refine ih rest ?_ [] (by simp) l hl
              simp at hlen; omega
        · rw [if_neg hb] at hl
          refine ih rest ?_ (c :: acc) ?_ l hl
          · simp at hlen; omega
          · intro x hx
            rcases List.mem_cons.mp hx with hx | hx
            · subst hx; simpa using hb
            · exact hacc x hx

theorem mem_pySplitlines_noBreak {cs : List Char} {l : List Char}
    (hl : l ∈ pySplitlines cs) : noBreakL l := by
  rw [pySplitlines] at hl
  by_cases h : cs = []
  · rw [if_pos h] at hl; simp at hl
  · rw [if_neg h] at hl
    exact mem_splitGo_noBreak_aux cs.length cs le_rfl [] (by simp) l hl

/-! ### Fence-scan lemmas -/

theorem scanFence_cons_false_skip {ln : List Char} (h : isFenceStart ln = false)
    (rest : List (List Char)) : scanFence (ln :: rest) false = scanFence rest false := by
  simp [scanFence, h]

theorem scanFence_cons_false_start {ln : List Char} (h : isFenceStart ln = true)
    (rest : List (List Char)) : scanFence (ln :: rest) false = scanFence rest true := by
  simp [scanFence, h]

theorem scanFence_cons_true_end {ln : List Char} (h : isFenceEnd ln = true)
    (rest : List (List Char)) : scanFence (ln :: rest) true = [] := by
  simp [scanFence, h]

theorem scanFence_cons_true_collect {ln : List Char} (h : isFenceEnd ln = false)
    (rest : List (List Char)) :
    scanFence (ln :: rest) true = ln :: scanFence rest true := by
  simp [scanFence, h]

theorem scanFence_skip {pre : List (List Char)}
    (h : ∀ l ∈ pre, isFenceStart l = false) (rest : List (List Char)) :
    scanFence (pre ++ rest) false = scanFence rest false := by
  induction pre with
  | nil => rfl
  | cons l pre' ih =>
    rw [List.cons_append, scanFence_cons_false_skip (h l (by simp)),
      ih (fun x hx => h x (List.mem_cons_of_mem l hx))]

theorem scanFence_false_all_skip {L : List (List Char)}
    (h : ∀ l ∈ L, isFenceStart l = false) : scanFence L false = [] := by
  have := scanFence_skip h []
  simpa [scanFence] using this

theorem scanFence_collect {cls : List (List Char)}
    (h : ∀ l ∈ cls, isFenceEnd l = false) (rest : List (List Char)) :
    scanFence (cls ++ rest) true = cls ++ scanFence rest true := by
  induction cls with
  | nil => rfl
  | cons l cls' ih =>
    rw [List.cons_append, scanFence_cons_true_collect (h l (by simp)),
      ih (fun x hx => h x (List.mem_cons_of_mem l hx))]
    rfl

theorem scanFence_collect_all {cls : List (List Char)}
    (h : ∀ l ∈ cls, isFenceEnd l = false) : scanFence cls true = cls := by
  have := scanFence_collect h []
  simpa [scanFence] using this

theorem mem_scanFence {L : List (List Char)} {b : Bool} {l : List Char}
    (hl : l ∈ scanFence L b) : l ∈ L := by
  induction L generalizing b with
  | nil => simp [scanFence] at hl
  | cons x rest ih =>
    rw [scanFence] at hl
    split at hl
    · exact List.mem_cons_of_mem x (ih hl)
    · split at hl
      · simp at hl
      · split at hl
        · rcases List.mem_cons.mp hl with hl | hl
          · simp [hl]
          · exact List.mem_cons_of_mem x (ih hl)
        · exact List.mem_cons_of_mem x (ih hl)

/-- A line matching `FENCE_END_RE` also matches `FENCE_START_RE`
(empty language tag), so `¬ FENCE_START` implies `¬ FENCE_END`. -/
theorem mem_of_mem_dropWhile {p : Char → Bool} {l : List Char} {x : Char}
    (h : x ∈ l.dropWhile p) : x ∈ l := by
  induction l with
  | nil => simp [List.dropWhile] at h
  | cons c rest ih =>
    rw [List.dropWhile_cons] at h
    split at h
    · exact List.mem_cons_of_mem c (ih h)
    · exact h

theorem isFenceStart_of_isFenceEnd {l : List Char} (h : isFenceEnd l = true) :
    isFenceStart l = true := by
  unfold isFenceEnd at h
  unfold isFenceStart
  simp only [Bool.and_eq_true] at h ⊢
  refine ⟨h.1, ?_⟩
  apply List.all_eq_true.mpr
  intro x hx
  exact List.all_eq_true.mp h.2 x (mem_of_mem_dropWhile hx)

/-! ### Header-pattern lemmas -/

theorem stripChars_cons_space {c : Char} (h : isPySpace c = true) (l : List Char) :
    stripChars (c :: l) = stripChars l := by
  simp [stripChars, List.dropWhile_cons, h]

theorem headerPath_eq_none_of_take2 {l : List Char} (h : l.take 2 ≠ ['#', '#']) :
    headerPath l = none := by
  rw [headerPath, if_pos h]

theorem headerPath_cons_of_ne {c : Char} (h : c ≠ '#') (l : List Char) :
    headerPath (c :: l) = none := by
  apply headerPath_eq_none_of_take2
  rcases l with _ | ⟨c', l'⟩ <;> simp [h]

theorem headerPath_cons_cons_of_ne {c c' : Char} (h : c' ≠ '#') (l : List Char) :
    headerPath (c :: c' :: l) = none := by
  apply headerPath_eq_none_of_take2
  simp [h]

theorem headerPath_render {rel : List Char} (hne : rel ≠ [])
    (hstrip : stripChars rel = rel) :
    headerPath ("## File: ".data ++ rel) = some rel := by
  rcases rel with _ | ⟨a, rel'⟩
  · exact absurd rfl hne
  · have e3 : (' ' :: 'F' :: 'i' :: 'l' :: 'e' :: ':' :: ' ' :: a :: rel').dropWhile isPySpace
        = 'F' :: 'i' :: 'l' :: 'e' :: ':' :: ' ' :: a :: rel' := by
      rw [List.dropWhile_cons, if_pos (by decide), List.dropWhile_cons, if_neg (by decide)]
    show headerPath ('#' :: '#' :: ' ' :: 'F' :: 'i' :: 'l' :: 'e' :: ':' :: ' ' :: a :: rel')
      = some (a :: rel')
    have e2 : List.drop 2
        ('#' :: '#' :: ' ' :: 'F' :: 'i' :: 'l' :: 'e' :: ':' :: ' ' :: a :: rel')
        = ' ' :: 'F' :: 'i' :: 'l' :: 'e' :: ':' :: ' ' :: a :: rel' := rfl
    have e4 : List.take 5 ('F' :: 'i' :: 'l' :: 'e' :: ':' :: ' ' :: a :: rel')
        = ['F', 'i', 'l', 'e', ':'] := rfl
    have e5 : List.drop 5 ('F' :: 'i' :: 'l' :: 'e' :: ':' :: ' ' :: a :: rel')
        = ' ' :: a :: rel' := rfl
    unfold headerPath
    rw [if_neg (by simp)]
    simp only [e2, e3, List.length_cons]
    rw [if_neg (by omega), e4, if_neg (by simp), e5]
    show (if isPySpace ' ' = true then some (stripChars (' ' :: a :: rel')) else none)
      = some (a :: rel')
    rw [if_pos (by decide), stripChars_cons_space (by decide), hstrip]

/-! ### Parse-loop lemmas -/

theorem parseLinesLC_cons_none {l : List Char} (h : headerPath l = none)
    (rest : List (List Char)) : parseLinesLC (l :: rest) = parseLinesLC rest := by
  simp [parseLinesLC, h]

theorem parseLinesLC_skip {pre : List (List Char)}
    (h : ∀ l ∈ pre, headerPath l = none) (ls : List (List Char)) :
    parseLinesLC (pre ++ ls) = parseLinesLC ls := by
  induction pre with
  | nil => rfl
  | cons l pre' ih =>
    rw [List.cons_append, parseLinesLC_cons_none (h l (by simp)),
      ih (fun x hx => h x (List.mem_cons_of_mem l hx))]

theorem parseLinesLC_cons_some {l : List Char} {p : List Char}
    (h : headerPath l = some p) (rest : List (List Char)) :
    parseLinesLC (l :: rest) =
      (p, extractContent (
        if (rest.takeWhile (fun l2 => (headerPath l2).isNone)).length = rest.length then
          if rest.takeWhile (fun l2 => (headerPath l2).isNone) = [] then []
          else '\n' :: nlJoin (rest.takeWhile (fun l2 => (headerPath l2).isNone))
        else '\n' :: joinLF (rest.takeWhile (fun l2 => (headerPath l2).isNone)))) ::
      parseLinesLC rest := by
  rw [parseLinesLC, h]

theorem map_fst_parseLinesLC (ls : List (List Char)) :
    (parseLinesLC ls).map Prod.fst = ls.filterMap headerPath := by
  induction ls with
  | nil => rfl
  | cons l rest ih =>
    rcases h : headerPath l with _ | p
    · rw [parseLinesLC_cons_none h, List.filterMap_cons_none h, ih]
    · rw [parseLinesLC_cons_some h]
      simp [List.filterMap_cons, h, ih]

theorem takeWhile_append_all {p : List Char → Bool} {A : List (List Char)}
    (h : ∀ x ∈ A, p x = true) (B : List (List Char)) :
    (A ++ B).takeWhile p = A ++ B.takeWhile p := by
  induction A with
  | nil => rfl
  | cons a A' ih =>
    rw [List.cons_append, List.takeWhile_cons, if_pos (h a (by simp)),
      ih (fun x hx => h x (List.mem_cons_of_mem a hx))]
    rfl

theorem takeWhile_all {p : List Char → Bool} {A : List (List Char)}
    (h : ∀ x ∈ A, p x = true) : A.takeWhile p = A := by
  have := takeWhile_append_all h []
  simpa using this

/-! ### Write-loop lemmas -/

theorem restoreGo_snd_allOk (out : PyPath) (es : List (List Char × List Char))
    (fs0 : FS) : (restoreGo allOk out es fs0).2 = false := by
  induction es generalizing fs0 with
  | nil => rfl
  | cons e rest ih =>
    rcases e with ⟨rel, c⟩
    rw [restoreGo,
      if_pos (show allOk.writeTextOk (pyJoin out (pyPathLC rel)) = true from rfl)]
    exact ih _

theorem restoreGo_fst_allOk (out : PyPath) (es : List (List Char × List Char))
    (fs0 : FS) (t : PyPath) :
    (restoreGo allOk out es fs0).1 t =
      match (es.filter (fun e => pyJoin out (pyPathLC e.1) = t)).getLast? with
      | some e => some ⟨e.2⟩
      | none => fs0 t := by
  induction es generalizing fs0 with
  | nil => rfl
  | cons e rest ih =>
    rcases e with ⟨rel, c⟩
    rw [restoreGo,
      if_pos (show allOk.writeTextOk (pyJoin out (pyPathLC rel)) = true from rfl), ih]
    rcases hfilt : rest.filter (fun e => pyJoin out (pyPathLC e.1) = t) with _ | ⟨x, xs⟩
    · by_cases hp : pyJoin out (pyPathLC rel) = t
      · rw [List.filter_cons, if_pos (by simpa using hp), hfilt]
        simp [fsWrite, hp]
      · rw [List.filter_cons, if_neg (by simpa using hp), hfilt]
        simp only [fsWrite]
        rw [if_neg (fun h => hp h.symm)]
    · have hmatch : ∀ fsa fsb : FS,
          (match (x :: xs).getLast? with
           | some e => some (⟨e.2⟩ : String)
           | none => fsa t) =
          (match (x :: xs).getLast? with
           | some e => some (⟨e.2⟩ : String)
           | none => fsb t) := by
        intro fsa fsb
        rcases hl : (x :: xs).getLast? with _ | y
        · rw [List.getLast?_eq_none_iff] at hl
          simp at hl
        · rfl
      by_cases hp : pyJoin out (pyPathLC rel) = t
      · rw [List.filter_cons, if_pos (by simpa using hp), hfilt,
          List.getLast?_cons_cons]
        exact hmatch (fsWrite fs0 (pyJoin out (pyPathLC rel)) ⟨c⟩) fs0
      · rw [List.filter_cons, if_neg (by simpa using hp), hfilt]
        exact hmatch (fsWrite fs0 (pyJoin out (pyPathLC rel)) ⟨c⟩) fs0

theorem restoreGo_not_target (ora : WriteOracle) (out : PyPath)
    (es : List (List Char × List Char)) :
    ∀ (fs0 : FS) (p : PyPath), (∀ e ∈ es, pyJoin out (pyPathLC e.1) ≠ p) →
    (restoreGo ora out es fs0).1 p = fs0 p := by
  induction es with
  | nil => intro fs0 p _; rfl
  | cons e rest ih =>
    intro fs0 p hp
    rcases e with ⟨rel, c⟩
    have hne : pyJoin out (pyPathLC rel) ≠ p := hp (rel, c) (by simp)
    have htail : ∀ x ∈ rest, pyJoin out (pyPathLC x.1) ≠ p :=
      fun x hx => hp x (List.mem_cons_of_mem _ hx)
    rw [restoreGo]
    split
    · rw [ih _ p htail]
      simp only [fsWrite]
      rw [if_neg (fun h => hne h.symm)]
    · split
      · rw [ih _ p htail]
        simp only [fsWrite]
        rw [if_neg (fun h => hne h.symm)]
      · rfl

theorem restoreGo_preserves_some (ora : WriteOracle) (out : PyPath)
    (es : List (List Char × List Char)) :
    ∀ (fs0 : FS) (p : PyPath) (c : String), fs0 p = some c →
    ∃ c', (restoreGo ora out es fs0).1 p = some c' := by
  induction es with
  | nil => intro fs0 p c h; exact ⟨c, h⟩
  | cons e rest ih =>
    intro fs0 p c h
    rcases e with ⟨rel, c0⟩
    rw [restoreGo]
    have hw : ∀ c1 : String, ∃ c2,
        (fsWrite fs0 (pyJoin out (pyPathLC rel)) c1) p = some c2 := by
      intro c1
      by_cases hp : p = pyJoin out (pyPathLC rel)
      · exact ⟨c1, by simp [fsWrite, hp]⟩
      · exact ⟨c, by simp [fsWrite, hp, h]⟩
    split
    · obtain ⟨c2, hc2⟩ := hw ⟨c0⟩
      exact ih _ p c2 hc2
    · split
      · obtain ⟨c2, hc2⟩ := hw ⟨c0⟩
        exact ih _ p c2 hc2
      · exact ⟨c, h⟩

theorem restoreGo_abort (ora : WriteOracle) (out : PyPath)
    (e : List Char × List Char) (post : List (List Char × List Char))
    (h1 : ora.writeTextOk (pyJoin out (pyPathLC e.1)) = false)
    (h2 : ora.fallbackOk (pyJoin out (pyPathLC e.1)) = false) :
    ∀ (pre : List (List Char × List Char)) (fs0 : FS),
    (∀ x ∈ pre, ora.writeTextOk (pyJoin out (pyPathLC x.1)) = true ∨
      ora.fallbackOk (pyJoin out (pyPathLC x.1)) = true) →
    restoreGo ora out (pre ++ e :: post) fs0 =
      (pre.foldl (fun fs x => fsWrite fs (pyJoin out (pyPathLC x.1)) ⟨x.2⟩) fs0,
       true) := by
  intro pre
  induction pre with
  | nil =>
    intro fs0 _
    rcases e with ⟨rel, c⟩
    rw [List.nil_append, restoreGo]
    rw [if_neg (by simp [h1]), if_neg (by simp [h2])]
    rfl
  | cons x pre' ih =>
    intro fs0 hpre
    rcases x with ⟨rel, c⟩
    rw [List.cons_append, restoreGo]
    have htail := fun fs =>
      ih fs (fun y hy => hpre y (List.mem_cons_of_mem _ hy))
    by_cases hw : ora.writeTextOk (pyJoin out (pyPathLC rel)) = true
    · rw [if_pos hw, htail _]
      rfl
    · have hfb : ora.fallbackOk (pyJoin out (pyPathLC rel)) = true := by
        rcases hpre (rel, c) (by simp) with hx | hx
        · exact absurd hx hw
        · exact hx
      rw [if_neg hw, if_pos hfb, htail _]
      rfl

/-! ### Claim C2 -/

/-- C2 (path safety): the claim says a header whose relative path contains
parent-directory segments is rejected or sanitized and никогда written
outside the destination root.  The code does neither: for the document
with header `../../etc/passwd`, `restore_from_markdown` writes to
`out_dir / "../../etc/passwd"` unchanged, a location that resolves
outside the destination root. -/
theorem c2_path_escape_unsanitized :
    parseDocument escapeDoc = [("../../etc/passwd", "secret")] ∧
    (restoreFromMarkdown allOk escapeDoc outSrv emptyFS).1
      ⟨true, ["srv", "data", "..", "..", "etc", "passwd"]⟩ = some "secret" ∧
    underRoot outSrv.parts ["srv", "data", "..", "..", "etc", "passwd"] = false :=
  ⟨by decide, by decide, by decide⟩

/-! ### Claim C3 -/

/-- C3, counterexample: the claim says a write failure on one entry must
not abort the remaining entries.  With an oracle making both write
attempts on the first entry's target fail, restore aborts (the exception
propagates out of the loop) and the second of the two parsed entries is
never written. -/
theorem c3_write_failure_aborts_counterexample :
    (parseDocument twoEntryDoc).length = 2 ∧
    (restoreFromMarkdown failAOracle twoEntryDoc ⟨true, ["o"]⟩ emptyFS).2 = true ∧
    (restoreFromMarkdown failAOracle twoEntryDoc ⟨true, ["o"]⟩ emptyFS).1
      ⟨true, ["o", "b.txt"]⟩ = none := by
  decide

/-- C3, amended: when `write_text` on an entry raises, the `except`
clause retries the write once (`errors="replace"`); if the retry also
raises, the exception propagates, restore stops with only the earlier
entries written, and no success/failure count is reported anywhere. -/
theorem c3_write_failure_abort_behavior (ora : WriteOracle) (md : String)
    (out : PyPath) (fs0 : FS) (pre : List (List Char × List Char))
    (e : List Char × List Char) (post : List (List Char × List Char))
    (hsplit : parseDocLC md.data = pre ++ e :: post)
    (hpre : ∀ x ∈ pre, ora.writeTextOk (pyJoin out (pyPathLC x.1)) = true ∨
      ora.fallbackOk (pyJoin out (pyPathLC x.1)) = true)
    (h1 : ora.writeTextOk (pyJoin out (pyPathLC e.1)) = false)
    (h2 : ora.fallbackOk (pyJoin out (pyPathLC e.1)) = false) :
    restoreFromMarkdown ora md out fs0 =
      (pre.foldl (fun fs x => fsWrite fs (pyJoin out (pyPathLC x.1)) ⟨x.2⟩) fs0,
       true) := by
  rw [show restoreFromMarkdown ora md out fs0
      = restoreGo ora out (parseDocLC md.data) fs0 from rfl, hsplit]
  exact restoreGo_abort ora out e post h1 h2 pre fs0 hpre

theorem c3_write_failure_abort_behavior_witness :
    restoreFromMarkdown failAOracle twoEntryDoc ⟨true, ["o"]⟩ emptyFS
      = (emptyFS, true) := by
  have h := c3_write_failure_abort_behavior failAOracle twoEntryDoc ⟨true, ["o"]⟩
    emptyFS [] ("a.txt".data, "x".data) [("b.txt".data, "y".data)]
    (by decide) (by decide) (by decide) (by decide)
  simpa using h

/-! ### Claim C4 -/

/-- C4 (non-fence-aware header scan): the entries the parser produces are
exactly the lines matching `FILE_SECTION_RE`, in document order — the
scan never consults fences, so a header-pattern line occurring verbatim
inside another entry's fenced content also becomes a section boundary
and contributes its own entry, splitting the enclosing one. -/
theorem c4_header_scan_not_fence_aware (md : String) :
    (parseDocument md).map Prod.fst =
      ((linesNl md.data).filterMap headerPath).map (fun p => (⟨p⟩ : String)) := by
  rw [parseDocument, show parseDocLC md.data = parseLinesLC (linesNl md.data) from rfl,
    List.map_map, ← map_fst_parseLinesLC (linesNl md.data), List.map_map]
  simp [Function.comp]

/-! ### Claim C9 -/

/-- C9 (duplicate-path last-write-wins): with every write succeeding,
restore never errors, and the file remaining at any target `t` holds the
content of the last parsed section written to `t` (entries are processed
in document order and each write overwrites unconditionally); targets no
section names keep their prior content.  In particular two headers with
the same relative path leave the last section's content, with no
uniqueness check or error. -/
theorem c9_duplicate_path_last_write_wins (md : String) (out : PyPath)
    (fs0 : FS) (t : PyPath) :
    (restoreFromMarkdown allOk md out fs0).2 = false ∧
    (restoreFromMarkdown allOk md out fs0).1 t =
      match ((parseDocument md).filter
          (fun e => pyJoin out (pyPath e.1) = t)).getLast? with
      | some e => some e.2
      | none => fs0 t := by
  constructor
  · exact restoreGo_snd_allOk out (parseDocLC md.data) fs0
  · rw [show restoreFromMarkdown allOk md out fs0
        = restoreGo allOk out (parseDocLC md.data) fs0 from rfl,
      restoreGo_fst_allOk]
    simp only [parseDocument, List.filter_map, List.getLast?_map]
    rw [show ((fun e : String × String => decide (pyJoin out (pyPath e.1) = t)) ∘
        (fun pc : List Char × List Char => ((⟨pc.1⟩ : String), (⟨pc.2⟩ : String))))
        = (fun e : List Char × List Char => decide (pyJoin out (pyPathLC e.1) = t))
        from rfl]
    rcases hl : ((parseDocLC md.data).filter
        (fun e => pyJoin out (pyPathLC e.1) = t)).getLast? with _ | y
    · rw [hl]
      rfl
    · rw [hl]
      rfl

/-! ### Claim C10 -/

/-- C10 (restore frame property): `restore_from_markdown` creates or
modifies only the targets `out_dir / rel` named by the document's header
lines; any path not among those targets keeps whatever `fs0` held there,
and a file that existed before restore still exists afterwards (writes
only ever replace content, nothing is deleted). -/
theorem c10_restore_frame (ora : WriteOracle) (md : String) (out : PyPath)
    (fs0 : FS) (p : PyPath) :
    (p ∉ (parseDocument md).map (fun e => pyJoin out (pyPath e.1)) →
      (restoreFromMarkdown ora md out fs0).1 p = fs0 p) ∧
    (∀ c, fs0 p = some c →
      ∃ c', (restoreFromMarkdown ora md out fs0).1 p = some c') := by
  constructor
  · intro hp
    apply restoreGo_not_target
    intro e he heq
    apply hp
    rw [parseDocument, List.map_map]
    exact List.mem_map.mpr ⟨e, he, heq⟩
  · intro c hc
    exact restoreGo_preserves_some ora out _ fs0 p c hc

theorem c10_restore_frame_witness :
    ((restoreFromMarkdown allOk "## File: a.txt\n```\nnew\n```\n" ⟨true, ["o"]⟩
        (fun q => if q = ⟨true, ["o", "keep.txt"]⟩ then some "old" else none)).1
      ⟨true, ["o", "keep.txt"]⟩ = some "old") ∧
    (∃ c', (restoreFromMarkdown allOk "## File: a.txt\n```\nnew\n```\n"
        ⟨true, ["o"]⟩
        (fun q => if q = ⟨true, ["o", "keep.txt"]⟩ then some "old" else none)).1
      ⟨true, ["o", "keep.txt"]⟩ = some c') := by
  constructor
  · rw [(c10_restore_frame allOk "## File: a.txt\n```\nnew\n```\n" ⟨true, ["o"]⟩
      (fun q => if q = ⟨true, ["o", "keep.txt"]⟩ then some "old" else none)
      ⟨true, ["o", "keep.txt"]⟩).1 (by decide)]
    decide
  · exact (c10_restore_frame allOk "## File: a.txt\n```\nnew\n```\n" ⟨true, ["o"]⟩
      (fun q => if q = ⟨true, ["o", "keep.txt"]⟩ then some "old" else none)
      ⟨true, ["o", "keep.txt"]⟩).2 "old" (by decide)

/-! ### Section-shape lemmas -/

theorem pySplitlines_cons_nl (X : List Char) :
    pySplitlines ('\n' :: X) = [] :: pySplitlines X := by
  rw [pySplitlines, if_neg (by simp), splitGo_cons,
    if_neg (by simp), if_pos (by simp [isLineBreak])]
  by_cases hX : X = []
  · simp [hX, pySplitlines]
  · rw [if_neg hX, pySplitlines, if_neg hX]
    rfl

theorem isFenceStart_ne_nil {f : List Char} (h : isFenceStart f = true) : f ≠ [] := by
  intro hnil
  subst hnil
  simp [isFenceStart] at h

theorem headerPath_none_of_fenceStart {f : List Char} (h : isFenceStart f = true) :
    headerPath f = none := by
  apply headerPath_eq_none_of_take2
  simp only [isFenceStart, Bool.and_eq_true, decide_eq_true_eq] at h
  have h2 := congrArg (List.take 2) h.1
  rw [List.take_take] at h2
  rw [show min 2 3 = 2 from rfl] at h2
  rw [h2]
  decide

theorem nlJoin_ne_nil_of_mem {L : List (List Char)} {l : List Char}
    (hl : l ∈ L) (hne : l ≠ []) : nlJoin L ≠ [] := by
  induction L with
  | nil => simp at hl
  | cons x L' ih =>
    rcases L' with _ | ⟨y, L''⟩
    · have : l = x := by simpa using hl
      subst this
      simpa [nlJoin] using hne
    · have : nlJoin (x :: y :: L'') = x ++ '\n' :: nlJoin (y :: L'') := rfl
      rw [this]
      simp

theorem getLast?_append_cons' (A : List (List Char)) (f : List Char)
    (R : List (List Char)) : (A ++ f :: R).getLast? = (f :: R).getLast? := by
  induction A with
  | nil => rfl
  | cons a A' ih =>
    rcases hA : A' ++ f :: R with _ | ⟨y, ys⟩
    · exact absurd hA (by simp)
    · rw [List.cons_append, hA, List.getLast?_cons_cons, ← hA, ih]

theorem dropLast_append_cons' (A : List (List Char)) (f : List Char)
    (R : List (List Char)) : (A ++ f :: R).dropLast = A ++ (f :: R).dropLast := by
  induction A with
  | nil => rfl
  | cons a A' ih =>
    rcases hA : A' ++ f :: R with _ | ⟨y, ys⟩
    · exact absurd hA (by simp)
    · rw [List.cons_append, hA, List.dropLast_cons₂, ← hA, ih]
      rfl

theorem parseLinesLC_content_shape {ls : List (List Char)} {p c : List Char}
    (h : (p, c) ∈ parseLinesLC ls) :
    ∃ cls : List (List Char), c = nlJoin cls ∧ ∀ l ∈ cls, noBreakL l := by
  induction ls with
  | nil => simp [parseLinesLC] at h
  | cons l rest ih =>
    rcases hl : headerPath l with _ | q
    · rw [parseLinesLC_cons_none hl] at h
      exact ih h
    · rw [parseLinesLC_cons_some hl] at h
      rcases List.mem_cons.mp h with h | h
      · refine ⟨scanFence (pySplitlines
          (if (rest.takeWhile (fun l2 => (headerPath l2).isNone)).length = rest.length then
            if rest.takeWhile (fun l2 => (headerPath l2).isNone) = [] then []
            else '\n' :: nlJoin (rest.takeWhile (fun l2 => (headerPath l2).isNone))
          else '\n' :: joinLF (rest.takeWhile (fun l2 => (headerPath l2).isNone)))) false,
          ?_, ?_⟩
        · have := congrArg Prod.snd h
          simpa [extractContent] using this
        · intro x hx
          exact mem_pySplitlines_noBreak (mem_scanFence hx)
      · exact ih h

/-! ### Claim C7 -/

/-- C7, counterexample: for a CRLF-delimited document the claim says the
reconstructed content is CRLF-joined; the code joins the collected lines
with `"\n"` (line 242), so the content comes out LF-joined. -/
theorem c7_crlf_counterexample :
    parseDocument "## File: a.txt\r\n```\r\nx\r\ny\r\n```\r\n" = [("a.txt", "x\ny")] ∧
    ("x\ny" : String) ≠ "x\r\ny" :=
  ⟨by decide, by decide⟩

/-- C7, amended: reconstructed content is always `"\n"`-joined from
break-free lines, regardless of the newline convention of the document —
`splitlines` strips every line-break character and the join uses `"\n"`
unconditionally. -/
theorem c7_content_always_lf_joined (md : String) (e : String × String)
    (he : e ∈ parseDocument md) :
    ∃ cls : List (List Char), e.2.data = nlJoin cls ∧ ∀ l ∈ cls, noBreakL l := by
  rw [parseDocument] at he
  obtain ⟨pc, hpc, he2⟩ := List.mem_map.mp he
  rcases pc with ⟨p, c⟩
  obtain ⟨cls, hc, hnb⟩ := parseLinesLC_content_shape hpc
  refine ⟨cls, ?_, hnb⟩
  rw [← he2]
  exact hc

theorem c7_content_always_lf_joined_witness :
    ∃ cls : List (List Char), (("a.txt", "x\ny") : String × String).2.data = nlJoin cls ∧
      ∀ l ∈ cls, noBreakL l :=
  c7_content_always_lf_joined "## File: a.txt\r\n```\r\nx\r\ny\r\n```\r\n"
    ("a.txt", "x\ny") (by decide)

/-! ### Claim C8 -/

/-- C8 (missing fence-start is permissive): a section — the span from a
header line to the next header line — none of whose lines matches the
fence-start pattern yields an entry for that header with empty content;
no error is raised (the entry is produced and handed to the write loop
like any other). -/
theorem c8_missing_fence_start (md : String) (pre : List (List Char))
    (h : List Char) (tail : List (List Char)) (p : List Char)
    (hsplit : linesNl md.data = pre ++ h :: tail)
    (hpre : ∀ l ∈ pre, headerPath l = none)
    (hh : headerPath h = some p)
    (hsec : ∀ l ∈ tail.takeWhile (fun l2 => (headerPath l2).isNone),
      isFenceStart l = false ∧ noBreakL l) :
    (parseDocument md).head? = some (⟨p⟩, "") := by
  rw [parseDocument, show parseDocLC md.data = parseLinesLC (linesNl md.data) from rfl,
    hsplit, parseLinesLC_skip hpre, parseLinesLC_cons_some hh]
  have hempty : ∀ X : List Char,
      (∀ l ∈ pySplitlines X, isFenceStart l = false) → extractContent X = [] := by
    intro X hX
    rw [extractContent, scanFence_false_all_skip hX]
    rfl
  have hcontent : extractContent
      (if (tail.takeWhile (fun l2 => (headerPath l2).isNone)).length = tail.length then
        if tail.takeWhile (fun l2 => (headerPath l2).isNone) = [] then []
        else '\n' :: nlJoin (tail.takeWhile (fun l2 => (headerPath l2).isNone))
      else '\n' :: joinLF (tail.takeWhile (fun l2 => (headerPath l2).isNone))) = [] := by
    set sec := tail.takeWhile (fun l2 => (headerPath l2).isNone) with hsec2
    have hnb : ∀ l ∈ sec, noBreakL l := fun l hl => (hsec l hl).2
    have hnf : ∀ l ∈ sec, isFenceStart l = false := fun l hl => (hsec l hl).1
    by_cases h1 : sec.length = tail.length
    · rw [if_pos h1]
      by_cases h2 : sec = []
      · rw [if_pos h2]
        exact hempty [] (by simp [pySplitlines])
      · rw [if_neg h2]
        apply hempty
        rw [pySplitlines_cons_nl, pySplitlines_nlJoin h2 hnb]
        intro l hl
        rcases List.mem_cons.mp hl with hl | hl
        · subst hl; decide
        · split at hl
          · exact hnf l (List.dropLast_subset _ hl)
          · exact hnf l hl
    · rw [if_neg h1]
      apply hempty
      rw [pySplitlines_cons_nl, pySplitlines_joinLF hnb]
      intro l hl
      rcases List.mem_cons.mp hl with hl | hl
      · subst hl; decide
      · exact hnf l hl
  rw [hcontent]
  rfl

theorem c8_missing_fence_start_witness :
    (parseDocument "## File: empty.txt\nno fences here\n").head?
      = some ("empty.txt", "") := by
  have h := c8_missing_fence_start "## File: empty.txt\nno fences here\n" []
    "## File: empty.txt".data ["no fences here".data, "".data] "empty.txt".data
    (by decide) (by decide) (by decide) (by decide)
  exact h

/-! ### Claim C6 -/

/-- C6 (unclosed fence): a document with exactly one header line,
followed (possibly after non-fence lines) by a fence-start line and then
by lines none of which matches the fence-end pattern, parses to exactly
one entry whose content is the `"\n"`-join of every line after the
fence-start to end of document — and this is not an error.  (When the
document ends with a newline, the final empty line it produces is not a
content line, because `splitlines` yields no trailing empty line.) -/
theorem c6_unclosed_fence (md : String) (pre : List (List Char))
    (h : List Char) (mid : List (List Char)) (f : List Char)
    (rest : List (List Char)) (p : List Char)
    (hsplit : linesNl md.data = pre ++ (h :: (mid ++ f :: rest)))
    (hh : headerPath h = some p)
    (hpre : ∀ l ∈ pre, headerPath l = none)
    (hmid : ∀ l ∈ mid, headerPath l = none ∧ isFenceStart l = false ∧ noBreakL l)
    (hf : isFenceStart f = true) (hfnb : noBreakL f)
    (hrest : ∀ l ∈ rest, headerPath l = none ∧ isFenceEnd l = false ∧ noBreakL l) :
    parseDocument md =
      [(⟨p⟩, ⟨nlJoin (if rest.getLast? = some [] then rest.dropLast else rest)⟩)] := by
  rw [parseDocument, show parseDocLC md.data = parseLinesLC (linesNl md.data) from rfl,
    hsplit, parseLinesLC_skip hpre, parseLinesLC_cons_some hh]
  have hTnone : ∀ l ∈ mid ++ f :: rest, headerPath l = none := by
    intro l hl
    rcases List.mem_append.mp hl with hl | hl
    · exact (hmid l hl).1
    · rcases List.mem_cons.mp hl with hl | hl
      · subst hl; exact headerPath_none_of_fenceStart hf
      · exact (hrest l hl).1
  have htake : (mid ++ f :: rest).takeWhile (fun l2 => (headerPath l2).isNone)
      = mid ++ f :: rest := by
    apply takeWhile_all
    intro x hx
    simp [hTnone x hx]
  rw [htake, if_pos rfl, if_neg (by simp)]
  have hTnb : ∀ l ∈ mid ++ f :: rest, noBreakL l := by
    intro l hl
    rcases List.mem_append.mp hl with hl | hl
    · exact (hmid l hl).2.2
    · rcases List.mem_cons.mp hl with hl | hl
      · subst hl; exact hfnb
      · exact (hrest l hl).2.2
  have hcontent : extractContent ('\n' :: nlJoin (mid ++ f :: rest)) =
      nlJoin (if rest.getLast? = some [] then rest.dropLast else rest) := by
    rw [extractContent, pySplitlines_cons_nl,
      pySplitlines_nlJoin (by simp) hTnb]
    rw [getLast?_append_cons']
    have hskipmid : ∀ l2 ∈ ([] : List Char) :: mid, isFenceStart l2 = false := by
      intro l2 hl2
      rcases List.mem_cons.mp hl2 with hl2 | hl2
      · subst hl2; decide
      · exact (hmid l2 hl2).2.1
    have hscan : ∀ R2 : List (List Char), (∀ l ∈ R2, isFenceEnd l = false) →
        scanFence ([] :: (mid ++ f :: R2)) false = R2 := by
      intro R2 hR2
      rw [show ([] :: (mid ++ f :: R2) : List (List Char))
          = (([] : List Char) :: mid) ++ f :: R2 from by simp,
        scanFence_skip hskipmid, scanFence_cons_false_start hf,
        scanFence_collect_all hR2]
    rcases hR : rest with _ | ⟨r, rs⟩
    · rw [show ((f :: ([] : List (List Char))).getLast? : Option (List Char))
          = some f from rfl,
        if_neg (by simpa using isFenceStart_ne_nil hf)]
      rw [hscan [] (by simp)]
      simp
    · rw [List.getLast?_cons_cons]
      by_cases hLast : (r :: rs).getLast? = some ([] : List Char)
      · rw [if_pos hLast, if_pos hLast]
        rw [dropLast_append_cons', List.dropLast_cons₂]
        rw [hscan ((r :: rs).dropLast)
          (fun l hl => (hrest l (by rw [hR]; exact List.dropLast_subset _ hl)).2.1)]
      · rw [if_neg hLast, if_neg hLast]
        rw [hscan (r :: rs) (fun l hl => (hrest l (by rw [hR]; exact hl)).2.1)]
  rw [hcontent]
  have htail : parseLinesLC (mid ++ f :: rest) = [] := by
    have h2 := parseLinesLC_skip hTnone []
    simpa using h2
  rw [htail]
  rfl

theorem c6_unclosed_fence_witness :
    parseDocument "intro\n## File: solo\n```\nto the end\nno close"
      = [("solo", "to the end\nno close")] := by
  have h := c6_unclosed_fence "intro\n## File: solo\n```\nto the end\nno close"
    ["intro".data] "## File: solo".data [] "```".data
    ["to the end".data, "no close".data] "solo".data
    (by decide) (by decide) (by decide) (by decide) (by decide) (by decide) (by decide)
  exact h.trans (by decide)

/-! ### Render-side support lemmas -/

theorem pyRstrip_append_nl (xs : List Char) : pyRstrip (xs ++ ['\n']) = pyRstrip xs := by
  simp [pyRstrip, List.dropWhile_cons, show isPySpace '\n' = true from by decide]

theorem pyRstrip_append_nonspace {c : Char} (hc : isPySpace c = false)
    (xs : List Char) : pyRstrip (xs ++ [c]) = xs ++ [c] := by
  simp [pyRstrip, List.dropWhile_cons, hc]

theorem flatMap_congr_mem {α β : Type} {l : List α} {f g : α → List β}
    (h : ∀ x ∈ l, f x = g x) : l.flatMap f = l.flatMap g := by
  induction l with
  | nil => rfl
  | cons x l' ih =>
    rw [List.flatMap_cons, List.flatMap_cons, h x (by simp),
      ih (fun y hy => h y (List.mem_cons_of_mem x hy))]

theorem flatMap_flatMap {α β γ : Type} (l : List α) (f : α → List β)
    (g : β → List γ) : (l.flatMap f).flatMap g = l.flatMap (fun x => (f x).flatMap g) := by
  induction l with
  | nil => rfl
  | cons x l' ih =>
    rw [List.flatMap_cons, List.flatMap_cons, List.flatMap_append, ih]

theorem mem_insertAfterLe {α : Type} {le : α → α → Bool} {x y : α} :
    ∀ {l : List α}, y ∈ insertAfterLe le x l → y = x ∨ y ∈ l := by
  intro l
  induction l with
  | nil => intro h; simpa [insertAfterLe] using h
  | cons z l' ih =>
    intro h
    rw [insertAfterLe] at h
    split at h
    · rcases List.mem_cons.mp h with h | h
      · exact Or.inr (by simp [h])
      · rcases ih h with h | h
        · exact Or.inl h
        · exact Or.inr (List.mem_cons_of_mem z h)
    · rcases List.mem_cons.mp h with h | h
      · exact Or.inl h
      · exact Or.inr (by simpa using h)

theorem mem_sortStable {α : Type} {le : α → α → Bool} {l : List α} {x : α}
    (h : x ∈ sortStable le l) : x ∈ l := by
  have aux : ∀ (l2 : List α) (acc : List α),
      x ∈ l2.foldl (fun a b => insertAfterLe le b a) acc → x ∈ acc ∨ x ∈ l2 := by
    intro l2
    induction l2 with
    | nil => intro acc h2; exact Or.inl h2
    | cons z l2' ih =>
      intro acc h2
      rcases ih (insertAfterLe le z acc) h2 with h2 | h2
      · rcases mem_insertAfterLe h2 with h2 | h2
        · exact Or.inr (by simp [h2])
        · exact Or.inl h2
      · exact Or.inr (List.mem_cons_of_mem z h2)
  rcases aux l [] h with h2 | h2
  · simp at h2
  · exact h2

theorem lookup_mem_snd {k v : String} :
    ∀ {m : List (String × String)}, m.lookup k = some v → v ∈ m.map Prod.snd := by
  intro m
  induction m with
  | nil => intro h; simp [List.lookup] at h
  | cons p m' ih =>
    intro h
    rcases p with ⟨a, b⟩
    rw [List.lookup] at h
    split at h
    · simp at h
      simp [h]
    · exact List.mem_cons_of_mem _ (ih h)

set_option maxHeartbeats 2000000 in
theorem detectLanguageTag_spec (rel : List Char) :
    pyRstrip ("```".data ++ detectLanguageTag rel) = "```".data ++ detectLanguageTag rel ∧
    isFenceStart ("```".data ++ detectLanguageTag rel) = true ∧
    '\n' ∉ "```".data ++ detectLanguageTag rel ∧
    headerPath ("```".data ++ detectLanguageTag rel) = none ∧
    noBreakL ("```".data ++ detectLanguageTag rel) := by
  have hval : ∀ w ∈ "" :: langMapping.map Prod.snd,
      pyRstrip ("```".data ++ w.data) = "```".data ++ w.data ∧
      isFenceStart ("```".data ++ w.data) = true ∧
      '\n' ∉ "```".data ++ w.data ∧
      headerPath ("```".data ++ w.data) = none ∧
      noBreakL ("```".data ++ w.data) := by decide
  rw [detectLanguageTag]
  rcases hlk : langMapping.lookup
      ⟨(pySuffixOf ((pyPathLC rel).parts.getLastD "").data).map toLowerAsciiChar⟩
      with _ | v
  · rw [hlk]
    exact hval "" (by simp)
  · rw [hlk]
    exact hval v (List.mem_cons_of_mem _ (lookup_mem_snd hlk))

theorem walkLeafs_shape :
    ∀ (leafs : List (List String)) (pfx : List Char),
    (∀ f ∈ leafs, '\n' ∉ nameOfParts f) →
    ∀ l ∈ walkLeafs leafs pfx,
    ∃ s, l = pfx ++ s ∧
      (s.head? = some '├' ∨ s.head? = some '└' ∨ s.head? = some '│' ∨ s.head? = some ' ') ∧
      '\n' ∉ s := by
  intro leafs
  induction leafs with
  | nil => intro pfx _ l hl; simp [walkLeafs] at hl
  | cons lf leafs' ih =>
    intro pfx hn l hl
    have hline : ∀ (b : Bool),
        ∃ s, pfx ++ branchMark b ++ nameOfParts lf = pfx ++ s ∧
          (s.head? = some '├' ∨ s.head? = some '└' ∨ s.head? = some '│' ∨
            s.head? = some ' ') ∧ '\n' ∉ s := by
      intro b
      refine ⟨branchMark b ++ nameOfParts lf, by simp, ?_, ?_⟩
      · cases b <;> simp [branchMark]
      · intro hmem
        rcases List.mem_append.mp hmem with hmem | hmem
        · cases b <;> simp [branchMark] at hmem
        · exact hn lf (by simp) hmem
    rcases leafs' with _ | ⟨lf2, leafs''⟩
    · rw [walkLeafs] at hl
      simp only [List.mem_singleton] at hl
      subst hl
      exact hline true
    · rw [walkLeafs] at hl
      rcases List.mem_cons.mp hl with hl | hl
      · subst hl
        exact hline false
      · exact ih pfx (fun f hf => hn f (List.mem_cons_of_mem lf hf)) l hl

theorem walkSubsWith_shape (rec : List String → List Char → List (List Char)) :
    ∀ (sds : List (List String)) (le0 : Bool) (pfx : List Char),
    (∀ sd ∈ sds, ∀ (p2 l : List Char), l ∈ rec sd p2 →
      ∃ s, l = p2 ++ s ∧
        (s.head? = some '├' ∨ s.head? = some '└' ∨ s.head? = some '│' ∨
          s.head? = some ' ') ∧ '\n' ∉ s) →
    (∀ sd ∈ sds, '\n' ∉ nameOfParts sd) →
    ∀ l ∈ walkSubsWith rec sds le0 pfx,
    ∃ s, l = pfx ++ s ∧
      (s.head? = some '├' ∨ s.head? = some '└' ∨ s.head? = some '│' ∨ s.head? = some ' ') ∧
      '\n' ∉ s := by
  intro sds
  induction sds with
  | nil => intro le0 pfx _ _ l hl; simp [walkSubsWith] at hl
  | cons sd sds' ih =>
    intro le0 pfx hrec hn l hl
    have hown : ∀ (b : Bool),
        ∃ s, pfx ++ branchMark b ++ nameOfParts sd ++ ['/'] = pfx ++ s ∧
          (s.head? = some '├' ∨ s.head? = some '└' ∨ s.head? = some '│' ∨
            s.head? = some ' ') ∧ '\n' ∉ s := by
      intro b
      refine ⟨branchMark b ++ nameOfParts sd ++ ['/'], by simp, ?_, ?_⟩
      · cases b <;> simp [branchMark]
      · intro hmem
        rcases List.mem_append.mp hmem with hmem | hmem
        · rcases List.mem_append.mp hmem with hmem | hmem
          · cases b <;> simp [branchMark] at hmem
          · exact hn sd (by simp) hmem
        · simp at hmem
    have hsub : ∀ (b : Bool) (l2 : List Char), l2 ∈ rec sd (pfx ++ contMark b) →
        ∃ s, l2 = pfx ++ s ∧
          (s.head? = some '├' ∨ s.head? = some '└' ∨ s.head? = some '│' ∨
            s.head? = some ' ') ∧ '\n' ∉ s := by
      intro b l2 hl2
      obtain ⟨s, hs1, hs2, hs3⟩ := hrec sd (by simp) (pfx ++ contMark b) l2 hl2
      refine ⟨contMark b ++ s, by simp [hs1], ?_, ?_⟩
      · cases b <;> simp [contMark]
      · intro hmem
        rcases List.mem_append.mp hmem with hmem | hmem
        · cases b <;> simp [contMark] at hmem
        · exact hs3 hmem
    rcases sds' with _ | ⟨sd2, sds''⟩
    · rw [walkSubsWith] at hl
      rcases List.mem_cons.mp hl with hl | hl
      · subst hl; exact hown le0
      · exact hsub le0 l hl
    · rw [walkSubsWith] at hl
      rcases List.mem_append.mp hl with hl | hl
      · rcases List.mem_cons.mp hl with hl | hl
        · subst hl; exact hown false
        · exact hsub false l hl
      · exact ih le0 pfx (fun x hx => hrec x (List.mem_cons_of_mem sd hx))
          (fun x hx => hn x (List.mem_cons_of_mem sd hx)) l hl

theorem walkTree_shape (allDirs files : List (List String))
    (hd : ∀ p ∈ allDirs, '\n' ∉ nameOfParts p)
    (hf : ∀ f ∈ files, '\n' ∉ nameOfParts f) :
    ∀ (fuel : Nat) (d : List String) (pfx : List Char),
    ∀ l ∈ walkTree allDirs files fuel d pfx,
    ∃ s, l = pfx ++ s ∧
      (s.head? = some '├' ∨ s.head? = some '└' ∨ s.head? = some '│' ∨ s.head? = some ' ') ∧
      '\n' ∉ s := by
  intro fuel
  induction fuel with
  | zero => intro d pfx l hl; simp [walkTree] at hl
  | succ fuel ih =>
    intro d pfx l hl
    rw [walkTree] at hl
    rcases List.mem_append.mp hl with hl | hl
    · refine walkSubsWith_shape _ _ _ pfx ?_ ?_ l hl
      · intro sd _ p2 l2 hl2
        exact ih sd p2 l2 hl2
      · intro sd hsd
        exact hd sd (List.mem_filter.mp (mem_sortStable hsd)).1
    · refine walkLeafs_shape _ pfx ?_ l hl
      intro f2 hf2
      exact hf f2 (List.mem_filter.mp (mem_sortStable hf2)).1

/-! ### The rendered document as a line list -/

theorem flatMap_fileSection_getLast? (files : List FileEntry) :
    (files.flatMap (fun e => if e.isText then fileSection e else [])).getLast?
      = some HRChars ∨
    files.flatMap (fun e => if e.isText then fileSection e else []) = [] := by
  induction files with
  | nil => exact Or.inr rfl
  | cons e fs ih =>
    rw [List.flatMap_cons]
    rcases ih with ih | ih
    · have hne : fs.flatMap (fun e => if e.isText then fileSection e else []) ≠ [] := by
        intro hnil
        rw [hnil] at ih
        simp at ih
      rw [List.getLast?_append_of_ne_nil _ hne]
      exact Or.inl ih
    · rw [ih, List.append_nil]
      by_cases ht : e.isText
      · rw [if_pos ht]
        exact Or.inl rfl
      · rw [if_neg ht]
        exact Or.inr rfl

theorem renderElems_getLast? (rootParts : List String) (files : List FileEntry)
    (zipB : Bool) :
    (renderElems rootParts files zipB).getLast? = some HRChars := by
  rw [renderElems]
  by_cases hz : (zipB && files.any (fun e => !e.isText)) = true
  · rw [if_pos hz]
    rw [List.getLast?_append_of_ne_nil _ (by simp)]
    rfl
  · rw [if_neg hz, List.append_nil]
    rcases flatMap_fileSection_getLast? files with hG | hG
    · have hne : files.flatMap (fun e => if e.isText then fileSection e else []) ≠ [] := by
        intro hnil
        rw [hnil] at hG
        simp at hG
      rw [List.getLast?_append_of_ne_nil _ hne]
      exact hG
    · rw [hG, List.append_nil]
      rfl

theorem renderLC_eq_nlJoin (rootParts : List String) (files : List FileEntry)
    (zipB : Bool) :
    renderLC rootParts files zipB = nlJoin (renderElems rootParts files zipB) := by
  have hlast := renderElems_getLast? rootParts files zipB
  have hE : (renderElems rootParts files zipB).dropLast ++ [HRChars]
      = renderElems rootParts files zipB :=
    List.dropLast_append_getLast? HRChars (by rw [hlast]; rfl)
  have hlen : 4 ≤ (renderElems rootParts files zipB).length := by
    rw [renderElems]
    simp
  have hne : (renderElems rootParts files zipB).dropLast ≠ [] := by
    intro hnil
    have := congrArg List.length hnil
    rw [List.length_dropLast] at this
    simp at this
    omega
  rw [renderLC, ← hE, nlJoin_append_single hne]
  rw [show ∀ X : List Char, X ++ '\n' :: HRChars
      = ((X ++ ['\n', '\n', '-', '-']) ++ ['-']) ++ ['\n'] from fun X => by
    simp [HRChars]]
  rw [pyRstrip_append_nl, pyRstrip_append_nonspace (by decide)]

/-! ### Path-segment character lemmas -/

theorem nameOfParts_cases (p : List String) :
    nameOfParts p = [] ∨ ∃ s ∈ p, nameOfParts p = s.data := by
  rcases p with _ | ⟨a, q⟩
  · exact Or.inl rfl
  · right
    refine ⟨(a :: q).getLast (by simp), List.getLast_mem (by simp), ?_⟩
    rw [nameOfParts, List.getLastD_eq_getLast?, List.getLast?_eq_getLast (a :: q) (by simp)]
    rfl

theorem mem_splitSlash_mem : ∀ (l : List Char) (s : List Char), s ∈ splitSlash l →
    ∀ c ∈ s, c ∈ l := by
  intro l
  induction l with
  | nil =>
    intro s hs c hc
    simp [splitSlash] at hs
    subst hs
    simp at hc
  | cons a rest ih =>
    intro s hs c hc
    rw [splitSlash] at hs
    by_cases ha : a = '/'
    · rw [if_pos ha] at hs
      rcases List.mem_cons.mp hs with hs | hs
      · subst hs; simp at hc
      · exact List.mem_cons_of_mem a (ih s hs c hc)
    · rw [if_neg ha] at hs
      rcases hsp : splitSlash rest with _ | ⟨t, ts⟩
      · rw [hsp] at hs
        simp at hs
        subst hs
        simp at hc
        simp [hc]
      · rw [hsp] at hs
        rcases List.mem_cons.mp hs with hs | hs
        · subst hs
          rcases List.mem_cons.mp hc with hc | hc
          · simp [hc]
          · exact List.mem_cons_of_mem a (ih t (by rw [hsp]; simp) c hc)
        · exact List.mem_cons_of_mem a
            (ih s (by rw [hsp]; exact List.mem_cons_of_mem t hs) c hc)

theorem pyPathLC_parts_chars {rel : List Char} {s : String}
    (hs : s ∈ (pyPathLC rel).parts) : ∀ c ∈ s.data, c ∈ rel := by
  rw [pyPathLC] at hs
  simp only [List.mem_map] at hs
  obtain ⟨t, ht, rfl⟩ := hs
  intro c hc
  exact mem_splitSlash_mem rel t (List.mem_filter.mp ht).1 c hc

theorem mem_ancestorGo_prefix (root : List String) :
    ∀ (n : Nat) (q d : List String), d ∈ ancestorGo root n q → d <+: q := by
  intro n
  induction n with
  | zero => intro q d hd; simp [ancestorGo] at hd
  | succ n ih =>
    intro q d hd
    rw [ancestorGo] at hd
    rcases List.mem_cons.mp hd with hd | hd
    · subst hd; exact List.prefix_rfl
    · by_cases hq : q = root
      · rw [if_pos hq] at hd; simp at hd
      · rw [if_neg hq] at hd
        exact (ih q.dropLast d hd).trans (List.dropLast_prefix q)

theorem mem_allDirsOf_chars {root : List String} {fl : List (List String)}
    {d : List String} (hd : d ∈ allDirsOf root fl) :
    ∀ s ∈ d, ∃ f ∈ fl, s ∈ f := by
  rw [allDirsOf, List.mem_dedup, List.mem_flatMap] at hd
  obtain ⟨f, hf, hdf⟩ := hd
  rw [ancestorChain] at hdf
  intro s hs
  refine ⟨f, hf, ?_⟩
  have hpre := mem_ancestorGo_prefix root (f.dropLast.length + 1) f.dropLast d hdf
  exact List.dropLast_subset f (hpre.subset hs)

/-! ### The rendered document, line by line -/

theorem linesNl_renderLC (rootParts : List String) (files : List FileEntry)
    (zipB : Bool)
    (hall : ∀ e ∈ files, e.isText = true)
    (hrnm : '\n' ∉ nameOfParts rootParts)
    (hrel : ∀ e ∈ files, '\n' ∉ e.rel.data)
    (hdirs : ∀ p ∈ allDirsOf rootParts
        (files.map (fun e => rootParts ++ (pyPath e.rel).parts)),
      '\n' ∉ nameOfParts p)
    (hfa : ∀ e ∈ files, '\n' ∉ nameOfParts (rootParts ++ (pyPath e.rel).parts)) :
    linesNl (renderLC rootParts files zipB) =
      preludeLines rootParts (files.map (fun e => rootParts ++ (pyPath e.rel).parts))
        ++ files.flatMap secLines := by
  have hany : files.any (fun e => !e.isText) = false := by
    rw [List.any_eq_false]
    intro e he
    rw [hall e he]
    decide
  have hz : (zipB && files.any (fun e => !e.isText)) = false := by
    rw [hany, Bool.and_false]
  have hRE : renderElems rootParts files zipB =
      ["# Project: ".data ++ nameOfParts rootParts ++ ['\n'],
       "## Structure".data,
       buildTree rootParts (files.map (fun e => rootParts ++ (pyPath e.rel).parts)),
       HRChars]
      ++ files.flatMap (fun e => if e.isText then fileSection e else []) := by
    have h0 : renderElems rootParts files zipB =
        (["# Project: ".data ++ nameOfParts rootParts ++ ['\n'],
          "## Structure".data,
          buildTree rootParts (files.map (fun e => rootParts ++ (pyPath e.rel).parts)),
          HRChars]
         ++ files.flatMap (fun e => if e.isText then fileSection e else []))
        ++ (if zipB && files.any (fun e => !e.isText) then
              ["## Binary assets\n".data, binNote, HRChars] else []) := rfl
    rw [h0, hz]
    simp
  have hT : linesNl ("# Project: ".data ++ nameOfParts rootParts ++ ['\n'])
      = ["# Project: ".data ++ nameOfParts rootParts, []] := by
    rw [linesNl_append, linesNl_of_not_mem_nl ?hX]
    case hX =>
      intro hm
      rcases List.mem_append.mp hm with h | h
      · exact absurd h (by decide)
      · exact hrnm h
    rfl
  have hfileN : ∀ f ∈ files.map (fun e => rootParts ++ (pyPath e.rel).parts),
      '\n' ∉ nameOfParts f := by
    intro f hf
    obtain ⟨e, he, rfl⟩ := List.mem_map.mp hf
    exact hfa e he
  have htreeNoNl : ∀ l ∈ (nameOfParts rootParts ++ ['/']) ::
      walkTree (allDirsOf rootParts (files.map (fun e => rootParts ++ (pyPath e.rel).parts)))
        (files.map (fun e => rootParts ++ (pyPath e.rel).parts))
        (((allDirsOf rootParts
            (files.map (fun e => rootParts ++ (pyPath e.rel).parts))).map
              List.length).foldl max 0 + 1)
        rootParts [], '\n' ∉ l := by
    intro l hl
    rcases List.mem_cons.mp hl with hl | hl
    · subst hl
      intro hm
      rcases List.mem_append.mp hm with h | h
      · exact hrnm h
      · simp at h
    · obtain ⟨s, hs1, _, hs3⟩ := walkTree_shape _ _ hdirs hfileN _ rootParts [] l hl
      rw [List.nil_append] at hs1
      subst hs1
      exact hs3
  have hBT : buildTree rootParts (files.map (fun e => rootParts ++ (pyPath e.rel).parts))
      = "```text".data ++ '\n' ::
        (nlJoin ((nameOfParts rootParts ++ ['/']) ::
          walkTree (allDirsOf rootParts
              (files.map (fun e => rootParts ++ (pyPath e.rel).parts)))
            (files.map (fun e => rootParts ++ (pyPath e.rel).parts))
            (((allDirsOf rootParts
                (files.map (fun e => rootParts ++ (pyPath e.rel).parts))).map
                  List.length).foldl max 0 + 1)
            rootParts []) ++ '\n' :: "```".data) := by
    have h0 : buildTree rootParts (files.map (fun e => rootParts ++ (pyPath e.rel).parts))
        = "```text\n".data ++
          nlJoin ((nameOfParts rootParts ++ ['/']) ::
            walkTree (allDirsOf rootParts
                (files.map (fun e => rootParts ++ (pyPath e.rel).parts)))
              (files.map (fun e => rootParts ++ (pyPath e.rel).parts))
              (((allDirsOf rootParts
                  (files.map (fun e => rootParts ++ (pyPath e.rel).parts))).map
                    List.length).foldl max 0 + 1)
              rootParts []) ++ "\n```".data := rfl
    rw [h0]
    have h1 : ("```text\n".data : List Char) = "```text".data ++ ['\n'] := by decide
    have h2 : ("\n```".data : List Char) = '\n' :: "```".data := by decide
    rw [h1, h2]
    simp
  have hB : linesNl
      (buildTree rootParts (files.map (fun e => rootParts ++ (pyPath e.rel).parts)))
      = "```text".data ::
        (((nameOfParts rootParts ++ ['/']) ::
          walkTree (allDirsOf rootParts
              (files.map (fun e => rootParts ++ (pyPath e.rel).parts)))
            (files.map (fun e => rootParts ++ (pyPath e.rel).parts))
            (((allDirsOf rootParts
                (files.map (fun e => rootParts ++ (pyPath e.rel).parts))).map
                  List.length).foldl max 0 + 1)
            rootParts []) ++ ["```".data]) := by
    rw [hBT, linesNl_append, linesNl_append,
      linesNl_of_not_mem_nl (by decide : ('\n' : Char) ∉ "```text".data),
      linesNl_of_not_mem_nl (by decide : ('\n' : Char) ∉ "```".data),
      linesNl_nlJoin (by simp) htreeNoNl]
    rfl
  have hsec : ∀ e ∈ files, (fileSection e).flatMap linesNl = secLines e := by
    intro e he
    have hhdr : linesNl ("## File: ".data ++ e.rel.data ++ ['\n'])
        = ["## File: ".data ++ e.rel.data, []] := by
      rw [linesNl_append, linesNl_of_not_mem_nl ?hY]
      case hY =>
        intro hm
        rcases List.mem_append.mp hm with h | h
        · exact absurd h (by decide)
        · exact hrel e he h
      rfl
    have hfen : linesNl (pyRstrip ("```".data ++ detectLanguageTag e.rel.data))
        = ["```".data ++ detectLanguageTag e.rel.data] := by
      rw [(detectLanguageTag_spec e.rel.data).1,
        linesNl_of_not_mem_nl (detectLanguageTag_spec e.rel.data).2.2.1]
    have h0 : (fileSection e).flatMap linesNl
        = linesNl ("## File: ".data ++ e.rel.data ++ ['\n'])
          ++ (linesNl (pyRstrip ("```".data ++ detectLanguageTag e.rel.data))
          ++ (linesNl e.content.data
          ++ (linesNl "```".data
          ++ (linesNl HRChars ++ [])))) := rfl
    rw [h0, hhdr, hfen,
      (by decide : linesNl "```".data = ["```".data]),
      (by decide : linesNl HRChars = [[], "---".data, []])]
    rw [secLines]
    simp
  rw [renderLC_eq_nlJoin, hRE, linesNl_nlJoin_flat (by simp), List.flatMap_append]
  have hflat : (files.flatMap (fun e => if e.isText then fileSection e else [])).flatMap
      linesNl = files.flatMap secLines := by
    rw [flatMap_flatMap]
    apply flatMap_congr_mem
    intro e he
    rw [if_pos (hall e he)]
    exact hsec e he
  rw [hflat]
  have hlit : ([ "# Project: ".data ++ nameOfParts rootParts ++ ['\n'],
      "## Structure".data,
      buildTree rootParts (files.map (fun e => rootParts ++ (pyPath e.rel).parts)),
      HRChars] : List (List Char)).flatMap linesNl
      = linesNl ("# Project: ".data ++ nameOfParts rootParts ++ ['\n'])
        ++ (linesNl "## Structure".data
        ++ (linesNl (buildTree rootParts
            (files.map (fun e => rootParts ++ (pyPath e.rel).parts)))
        ++ (linesNl HRChars ++ []))) := rfl
  rw [hlit, hT, hB,
    (by decide : linesNl "## Structure".data = ["## Structure".data]),
    (by decide : linesNl HRChars = [[], "---".data, []])]
  rw [preludeLines]
  simp

/-! ### Parsing one rendered section -/

theorem extractContent_section (fence content : List Char) (junk : List (List Char))
    (hf : isFenceStart fence = true) (hfnb : noBreakL fence)
    (hc : ∀ l ∈ linesNl content, isFenceEnd l = false ∧ noBreakL l)
    (hj : ∀ l ∈ junk, noBreakL l) :
    extractContent ('\n' :: joinLF (([] : List Char) :: fence ::
      (linesNl content ++ "```".data :: junk))) = content := by
  have hnb : ∀ l ∈ ([] : List Char) :: fence ::
      (linesNl content ++ "```".data :: junk), noBreakL l := by
    intro l hl
    rcases List.mem_cons.mp hl with hl | hl
    · subst hl; intro c hc2; simp at hc2
    rcases List.mem_cons.mp hl with hl | hl
    · subst hl; exact hfnb
    rcases List.mem_append.mp hl with hl | hl
    · exact (hc l hl).2
    rcases List.mem_cons.mp hl with hl | hl
    · subst hl; decide
    · exact hj l hl
  rw [extractContent, pySplitlines_cons_nl_joinLF hnb]
  rw [scanFence_cons_false_skip (by decide), scanFence_cons_false_skip (by decide),
    scanFence_cons_false_start hf,
    scanFence_collect (fun l hl => (hc l hl).1),
    scanFence_cons_true_end (by decide), List.append_nil, nlJoin_linesNl]

theorem parseLinesLC_sections : ∀ (files : List FileEntry),
    (∀ e ∈ files, e.rel.data ≠ [] ∧ stripChars e.rel.data = e.rel.data ∧
      ∀ l ∈ linesNl e.content.data,
        headerPath l = none ∧ isFenceEnd l = false ∧ noBreakL l) →
    parseLinesLC (files.flatMap secLines) =
      files.map (fun e => (e.rel.data, e.content.data)) := by
  intro files
  induction files with
  | nil => intro _; rfl
  | cons e fs ih =>
    intro h
    obtain ⟨hne, hstrip, hcont⟩ := h e (by simp)
    have hcons : (e :: fs).flatMap secLines
        = ("## File: ".data ++ e.rel.data) ::
          ((secLines e).tail ++ fs.flatMap secLines) := by
      rw [List.flatMap_cons]
      rfl
    have hpre7free : ∀ l ∈ ([] : List Char) ::
        ("```".data ++ detectLanguageTag e.rel.data) ::
        (linesNl e.content.data ++
          ["```".data, ([] : List Char), "---".data, ([] : List Char)]),
        headerPath l = none := by
      intro l hl
      rcases List.mem_cons.mp hl with hl | hl
      · subst hl; decide
      rcases List.mem_cons.mp hl with hl | hl
      · subst hl; exact (detectLanguageTag_spec e.rel.data).2.2.2.1
      rcases List.mem_append.mp hl with hl | hl
      · exact (hcont l hl).1
      · rcases List.mem_cons.mp hl with hl | hl
        · subst hl; decide
        rcases List.mem_cons.mp hl with hl | hl
        · subst hl; decide
        rcases List.mem_cons.mp hl with hl | hl
        · subst hl; decide
        · rw [List.mem_singleton] at hl; subst hl; decide
    rw [hcons, parseLinesLC_cons_some (headerPath_render hne hstrip)]
    rcases fs with _ | ⟨e2, fs'⟩
    · have hR : (secLines e).tail ++ ([] : List FileEntry).flatMap secLines
          = (([] : List Char) :: ("```".data ++ detectLanguageTag e.rel.data) ::
              (linesNl e.content.data ++
                ["```".data, ([] : List Char), "---".data]))
            ++ [([] : List Char)] := by
        simp [secLines]
      rw [hR]
      have htk : ((([] : List Char) :: ("```".data ++ detectLanguageTag e.rel.data) ::
            (linesNl e.content.data ++
              ["```".data, ([] : List Char), "---".data]))
          ++ [([] : List Char)]).takeWhile (fun l2 => (headerPath l2).isNone)
          = (([] : List Char) :: ("```".data ++ detectLanguageTag e.rel.data) ::
              (linesNl e.content.data ++
                ["```".data, ([] : List Char), "---".data]))
            ++ [([] : List Char)] := by
        apply takeWhile_all
        intro x hx
        have hx2 : x ∈ ([] : List Char) ::
            ("```".data ++ detectLanguageTag e.rel.data) ::
            (linesNl e.content.data ++
              ["```".data, ([] : List Char), "---".data, ([] : List Char)]) := by
          simp only [List.mem_append, List.mem_cons, List.mem_singleton] at hx ⊢
          tauto
        rw [hpre7free x hx2]
        rfl
      rw [htk, if_pos rfl, if_neg (by simp)]
      have hY : nlJoin ((([] : List Char) ::
            ("```".data ++ detectLanguageTag e.rel.data) ::
            (linesNl e.content.data ++
              ["```".data, ([] : List Char), "---".data]))
          ++ [([] : List Char)])
          = nlJoin (([] : List Char) ::
              ("```".data ++ detectLanguageTag e.rel.data) ::
              (linesNl e.content.data ++
                ["```".data, ([] : List Char), "---".data])) ++ '\n' :: [] :=
        nlJoin_append_single (by simp) []
      rw [hY, ← joinLF_eq_nlJoin (by simp)]
      have hEC := extractContent_section ("```".data ++ detectLanguageTag e.rel.data)
        e.content.data [([] : List Char), "---".data]
        (detectLanguageTag_spec e.rel.data).2.1
        (detectLanguageTag_spec e.rel.data).2.2.2.2
        (fun l hl => ⟨(hcont l hl).2.1, (hcont l hl).2.2⟩)
        (by
          intro l hl
          rcases List.mem_cons.mp hl with hl | hl
          · subst hl; intro c hc2; simp at hc2
          · rw [List.mem_singleton] at hl; subst hl; decide)
      have hsh : (([] : List Char) ::
            ("```".data ++ detectLanguageTag e.rel.data) ::
            (linesNl e.content.data ++ ["```".data, ([] : List Char), "---".data]))
          = ([] : List Char) :: ("```".data ++ detectLanguageTag e.rel.data) ::
            (linesNl e.content.data ++
              "```".data :: [([] : List Char), "---".data]) := by simp
      rw [hsh, hEC]
      have hrest : parseLinesLC ((([] : List Char) ::
            ("```".data ++ detectLanguageTag e.rel.data) ::
            (linesNl e.content.data ++
              ["```".data, ([] : List Char), "---".data]))
          ++ [([] : List Char)]) = [] := by
        have h0 : ((([] : List Char) ::
              ("```".data ++ detectLanguageTag e.rel.data) ::
              (linesNl e.content.data ++
                ["```".data, ([] : List Char), "---".data]))
            ++ [([] : List Char)])
            = (([] : List Char) ::
              ("```".data ++ detectLanguageTag e.rel.data) ::
              (linesNl e.content.data ++
                ["```".data, ([] : List Char), "---".data, ([] : List Char)]))
              ++ ([] : List (List Char)) := by simp
        rw [h0, parseLinesLC_skip hpre7free]
        rfl
      rw [hrest]
      rfl
    · have hnext : headerPath ("## File: ".data ++ e2.rel.data) = some e2.rel.data :=
        headerPath_render (h e2 (by simp)).1 (h e2 (by simp)).2.1
      have hR : (secLines e).tail ++ (e2 :: fs').flatMap secLines
          = (([] : List Char) :: ("```".data ++ detectLanguageTag e.rel.data) ::
              (linesNl e.content.data ++
                ["```".data, ([] : List Char), "---".data, ([] : List Char)]))
            ++ (("## File: ".data ++ e2.rel.data) ::
                ((secLines e2).tail ++ fs'.flatMap secLines)) := by
        rw [List.flatMap_cons]
        simp [secLines]
      rw [hR]
      have htk : ((([] : List Char) :: ("```".data ++ detectLanguageTag e.rel.data) ::
            (linesNl e.content.data ++
              ["```".data, ([] : List Char), "---".data, ([] : List Char)]))
          ++ (("## File: ".data ++ e2.rel.data) ::
              ((secLines e2).tail ++ fs'.flatMap secLines))).takeWhile
            (fun l2 => (headerPath l2).isNone)
          = ([] : List Char) :: ("```".data ++ detectLanguageTag e.rel.data) ::
            (linesNl e.content.data ++
              ["```".data, ([] : List Char), "---".data, ([] : List Char)]) := by
        rw [takeWhile_append_all (by intro x hx; rw [hpre7free x hx]; rfl)]
        rw [List.takeWhile_cons, if_neg (by rw [hnext]; simp)]
        simp
      rw [htk, if_neg (by simp [List.length_append])]
      have hjl : ([] : List Char) :: ("```".data ++ detectLanguageTag e.rel.data) ::
            (linesNl e.content.data ++
              ["```".data, ([] : List Char), "---".data, ([] : List Char)])
          = ([] : List Char) :: ("```".data ++ detectLanguageTag e.rel.data) ::
            (linesNl e.content.data ++
              "```".data :: [([] : List Char), "---".data, ([] : List Char)]) := by simp
      rw [hjl, extractContent_section ("```".data ++ detectLanguageTag e.rel.data)
        e.content.data [([] : List Char), "---".data, ([] : List Char)]
        (detectLanguageTag_spec e.rel.data).2.1
        (detectLanguageTag_spec e.rel.data).2.2.2.2
        (fun l hl => ⟨(hcont l hl).2.1, (hcont l hl).2.2⟩)
        (by
          intro l hl
          rcases List.mem_cons.mp hl with hl | hl
          · subst hl; intro c hc2; simp at hc2
          rcases List.mem_cons.mp hl with hl | hl
          · subst hl; decide
          · rw [List.mem_singleton] at hl; subst hl; intro c hc2; simp at hc2)]
      have hrest : parseLinesLC ((([] : List Char) ::
            ("```".data ++ detectLanguageTag e.rel.data) ::
            (linesNl e.content.data ++
              ["```".data, ([] : List Char), "---".data, ([] : List Char)]))
          ++ (("## File: ".data ++ e2.rel.data) ::
              ((secLines e2).tail ++ fs'.flatMap secLines)))
          = (e2 :: fs').map (fun e => (e.rel.data, e.content.data)) := by
        rw [parseLinesLC_skip hpre7free]
        have h2 : ("## File: ".data ++ e2.rel.data) ::
            ((secLines e2).tail ++ fs'.flatMap secLines)
            = (e2 :: fs').flatMap secLines := by
          rw [List.flatMap_cons]
          rfl
        rw [h2]
        exact ih (fun x hx => h x (List.mem_cons_of_mem e hx))
      rw [hrest]
      rfl

theorem preludeLines_headerFree (rootParts : List String)
    (fileAbs : List (List String))
    (hroot : headerPath (nameOfParts rootParts ++ ['/']) = none)
    (hdirs : ∀ p ∈ allDirsOf rootParts fileAbs, '\n' ∉ nameOfParts p)
    (hfa : ∀ f ∈ fileAbs, '\n' ∉ nameOfParts f) :
    ∀ l ∈ preludeLines rootParts fileAbs, headerPath l = none := by
  intro l hl
  rw [preludeLines] at hl
  rcases List.mem_append.mp hl with hl | hl
  · rcases List.mem_append.mp hl with hl | hl
    · rcases List.mem_cons.mp hl with hl | hl
      · subst hl; exact headerPath_cons_cons_of_ne (by decide) _
      rcases List.mem_cons.mp hl with hl | hl
      · subst hl; decide
      rcases List.mem_cons.mp hl with hl | hl
      · subst hl; decide
      · rw [List.mem_singleton] at hl; subst hl; decide
    · rcases List.mem_cons.mp hl with hl | hl
      · subst hl; exact hroot
      · obtain ⟨s, hs1, hs2, _⟩ := walkTree_shape _ _ hdirs hfa _ rootParts [] l hl
        rw [hs1, List.nil_append]
        rcases s with _ | ⟨c, t⟩
        · rcases hs2 with h2 | h2 | h2 | h2 <;> simp at h2
        · rw [List.head?_cons] at hs2
          rcases hs2 with h2 | h2 | h2 | h2 <;>
            (rw [Option.some_inj] at h2; subst h2;
             exact headerPath_cons_of_ne (by decide) t)
  · rcases List.mem_cons.mp hl with hl | hl
    · subst hl; decide
    rcases List.mem_cons.mp hl with hl | hl
    · subst hl; decide
    rcases List.mem_cons.mp hl with hl | hl
    · subst hl; decide
    · rw [List.mem_singleton] at hl; subst hl; decide

/-! ### Claim C1 -/

/-- C1, counterexample to the claim as stated: the entry
`("a.txt", "## File: b")` has content with no line matching either fence
pattern, yet parsing the rendered document does not return the entry
list — the embedded header-like content line starts a spurious section,
so the claim's precondition (no fence-delimiter lines in the content) is
not sufficient for `parse(render(entries)) == entries`. -/
theorem c1_claim_counterexample :
    (∀ l ∈ linesNl "## File: b".data,
      isFenceStart l = false ∧ isFenceEnd l = false) ∧
    parseDocument (renderMarkdown ["proj"] [⟨"a.txt", "## File: b", true⟩] false)
      ≠ [("a.txt", "## File: b")] := ⟨by decide, by decide⟩

/-- C1, amended: round-trip identity holds for text entries whose
contents contain no fence-delimiter lines AND no header-pattern lines
(and whose paths survive `strip`/`Path` round-tripping, contain no
newline, and whose content lines are free of the remaining `splitlines`
break characters; the root name must not itself look like a section
header): then parsing the rendered document returns exactly the entries,
paths and content intact, in order. -/
theorem c1_round_trip (rootParts : List String) (files : List FileEntry) (zipB : Bool)
    (hroot : headerPath (nameOfParts rootParts ++ ['/']) = none)
    (hrseg : ∀ s ∈ rootParts, '\n' ∉ s.data)
    (hent : ∀ e ∈ files, e.isText = true ∧ e.rel.data ≠ [] ∧
      stripChars e.rel.data = e.rel.data ∧ '\n' ∉ e.rel.data ∧
      ∀ l ∈ linesNl e.content.data,
        headerPath l = none ∧ isFenceStart l = false ∧ isFenceEnd l = false ∧
          noBreakL l) :
    parseDocument (renderMarkdown rootParts files zipB)
      = files.map (fun e => (e.rel, e.content)) := by
  have hrnm : '\n' ∉ nameOfParts rootParts := by
    rcases nameOfParts_cases rootParts with h | ⟨s, hs, h⟩
    · rw [h]; simp
    · rw [h]; exact hrseg s hs
  have hseg2 : ∀ e ∈ files, ∀ s ∈ rootParts ++ (pyPath e.rel).parts,
      '\n' ∉ s.data := by
    intro e he s hs
    rcases List.mem_append.mp hs with hs | hs
    · exact hrseg s hs
    · intro hm
      exact (hent e he).2.2.2.1 (pyPathLC_parts_chars hs '\n' hm)
  have hfa : ∀ e ∈ files, '\n' ∉ nameOfParts (rootParts ++ (pyPath e.rel).parts) := by
    intro e he
    rcases nameOfParts_cases (rootParts ++ (pyPath e.rel).parts) with h | ⟨s, hs, h⟩
    · rw [h]; simp
    · rw [h]; exact hseg2 e he s hs
  have hdirs : ∀ p ∈ allDirsOf rootParts
      (files.map (fun e => rootParts ++ (pyPath e.rel).parts)),
      '\n' ∉ nameOfParts p := by
    intro p hp
    rcases nameOfParts_cases p with h | ⟨s, hs, h⟩
    · rw [h]; simp
    · rw [h]
      obtain ⟨f, hf, hsf⟩ := mem_allDirsOf_chars hp s hs
      obtain ⟨e, he, rfl⟩ := List.mem_map.mp hf
      exact hseg2 e he s hsf
  have hlines := linesNl_renderLC rootParts files zipB
    (fun e he => (hent e he).1) hrnm (fun e he => (hent e he).2.2.2.1) hdirs hfa
  have hPfree : ∀ l ∈ preludeLines rootParts
      (files.map (fun e => rootParts ++ (pyPath e.rel).parts)),
      headerPath l = none :=
    preludeLines_headerFree rootParts _ hroot hdirs
      (by
        intro f hf
        obtain ⟨e, he, rfl⟩ := List.mem_map.mp hf
        exact hfa e he)
  have hparse : parseDocLC (renderLC rootParts files zipB)
      = files.map (fun e => (e.rel.data, e.content.data)) := by
    rw [parseDocLC, hlines, parseLinesLC_skip hPfree,
      parseLinesLC_sections files (fun e he =>
        ⟨(hent e he).2.1, (hent e he).2.2.1,
         fun l hl => ⟨((hent e he).2.2.2.2 l hl).1, ((hent e he).2.2.2.2 l hl).2.2.1,
           ((hent e he).2.2.2.2 l hl).2.2.2⟩⟩)]
  show (parseDocLC (renderLC rootParts files zipB)).map
      (fun pc => ((⟨pc.1⟩ : String), (⟨pc.2⟩ : String)))
    = files.map (fun e => (e.rel, e.content))
  rw [hparse, List.map_map]
  rfl

/-- C1, witness: a two-entry project round-trips exactly. -/
theorem c1_round_trip_witness :
    parseDocument (renderMarkdown ["proj"]
      [⟨"a.txt", "hello\nworld", true⟩, ⟨"src/b.py", "x=1", true⟩] false)
      = [("a.txt", "hello\nworld"), ("src/b.py", "x=1")] := by
  rw [c1_round_trip ["proj"]
    [⟨"a.txt", "hello\nworld", true⟩, ⟨"src/b.py", "x=1", true⟩] false
    (by decide) (by decide) (by decide)]
  rfl

/-! ### Claim C5 -/

/-- C5, counterexample to the claim as stated: the content
`"## File: b\n```\nZ"` contains a line equal to the fence-end marker,
but the reconstructed content for the entry is not the truncation of the
content at that line (`"## File: b"`): the header-like content line
splits the section first, so the entry comes back with empty content. -/
theorem c5_claim_counterexample :
    ((linesNl "## File: b\n```\nZ".data).any (fun l => isFenceEnd l) = true) ∧
    (parseDocument (renderMarkdown ["proj"]
        [⟨"a.txt", "## File: b\n```\nZ", true⟩] false)).head?
      ≠ some ("a.txt", "## File: b") := ⟨by decide, by decide⟩

/-- C5, amended: for an entry whose content lines split as
`cls1 ++ fe :: cls2` with `fe` the first fence-end-like line, and with no
header-like lines anywhere in the content (the correction — a header-like
line would re-split the section first), parsing the rendered document
reconstructs the entry with content truncated at `fe`: exactly
`cls1` joined by newlines, everything from `fe` on lost. -/
theorem c5_fence_end_truncation (rootParts : List String) (e : FileEntry)
    (zipB : Bool) (cls1 : List (List Char)) (fe : List Char)
    (cls2 : List (List Char))
    (hroot : headerPath (nameOfParts rootParts ++ ['/']) = none)
    (hrseg : ∀ s ∈ rootParts, '\n' ∉ s.data)
    (ht : e.isText = true) (hne : e.rel.data ≠ [])
    (hstrip : stripChars e.rel.data = e.rel.data) (hrel : '\n' ∉ e.rel.data)
    (hdec : linesNl e.content.data = cls1 ++ fe :: cls2)
    (hfe : isFenceEnd fe = true) (hfnb : noBreakL fe)
    (h1 : ∀ l ∈ cls1, headerPath l = none ∧ isFenceEnd l = false ∧ noBreakL l)
    (h2 : ∀ l ∈ cls2, headerPath l = none ∧ noBreakL l) :
    (parseDocument (renderMarkdown rootParts [e] zipB)).head?
      = some (e.rel, (⟨nlJoin cls1⟩ : String)) := by
  have hrnm : '\n' ∉ nameOfParts rootParts := by
    rcases nameOfParts_cases rootParts with h | ⟨s, hs, h⟩
    · rw [h]; simp
    · rw [h]; exact hrseg s hs
  have hseg2 : ∀ s ∈ rootParts ++ (pyPath e.rel).parts, '\n' ∉ s.data := by
    intro s hs
    rcases List.mem_append.mp hs with hs | hs
    · exact hrseg s hs
    · intro hm
      exact hrel (pyPathLC_parts_chars hs '\n' hm)
  have hfa : ∀ e2 ∈ [e], '\n' ∉ nameOfParts (rootParts ++ (pyPath e2.rel).parts) := by
    intro e2 he2
    rw [List.mem_singleton] at he2
    subst he2
    rcases nameOfParts_cases (rootParts ++ (pyPath e2.rel).parts) with h | ⟨s, hs, h⟩
    · rw [h]; simp
    · rw [h]; exact hseg2 s hs
  have hdirs : ∀ p ∈ allDirsOf rootParts
      ([e].map (fun e2 => rootParts ++ (pyPath e2.rel).parts)),
      '\n' ∉ nameOfParts p := by
    intro p hp
    rcases nameOfParts_cases p with h | ⟨s, hs, h⟩
    · rw [h]; simp
    · rw [h]
      obtain ⟨f, hf, hsf⟩ := mem_allDirsOf_chars hp s hs
      obtain ⟨e2, he2, rfl⟩ := List.mem_map.mp hf
      rw [List.mem_singleton] at he2
      subst he2
      exact hseg2 s hsf
  have hlines := linesNl_renderLC rootParts [e] zipB
    (by intro e2 he2; rw [List.mem_singleton] at he2; subst he2; exact ht)
    hrnm
    (by intro e2 he2; rw [List.mem_singleton] at he2; subst he2; exact hrel)
    hdirs hfa
  have hPfree : ∀ l ∈ preludeLines rootParts
      ([e].map (fun e2 => rootParts ++ (pyPath e2.rel).parts)),
      headerPath l = none :=
    preludeLines_headerFree rootParts _ hroot hdirs
      (by
        intro f hf
        obtain ⟨e2, he2, rfl⟩ := List.mem_map.mp hf
        exact hfa e2 he2)
  have hsec0 : ([e].flatMap secLines) = ("## File: ".data ++ e.rel.data) ::
      ([] : List Char) :: ("```".data ++ detectLanguageTag e.rel.data) ::
      (cls1 ++ fe :: (cls2 ++
        ["```".data, ([] : List Char), "---".data, ([] : List Char)])) := by
    simp [secLines, hdec]
  have htfree : ∀ l ∈ ([] : List Char) ::
      ("```".data ++ detectLanguageTag e.rel.data) ::
      (cls1 ++ fe :: (cls2 ++
        ["```".data, ([] : List Char), "---".data, ([] : List Char)])),
      headerPath l = none := by
    intro l hl
    rcases List.mem_cons.mp hl with hl | hl
    · subst hl; decide
    rcases List.mem_cons.mp hl with hl | hl
    · subst hl; exact (detectLanguageTag_spec e.rel.data).2.2.2.1
    rcases List.mem_append.mp hl with hl | hl
    · exact (h1 l hl).1
    rcases List.mem_cons.mp hl with hl | hl
    · subst hl
      exact headerPath_none_of_fenceStart (isFenceStart_of_isFenceEnd hfe)
    rcases List.mem_append.mp hl with hl | hl
    · exact (h2 l hl).1
    rcases List.mem_cons.mp hl with hl | hl
    · subst hl; decide
    rcases List.mem_cons.mp hl with hl | hl
    · subst hl; decide
    rcases List.mem_cons.mp hl with hl | hl
    · subst hl; decide
    · rw [List.mem_singleton] at hl; subst hl; decide
  have htk : (([] : List Char) ::
      ("```".data ++ detectLanguageTag e.rel.data) ::
      (cls1 ++ fe :: (cls2 ++
        ["```".data, ([] : List Char), "---".data, ([] : List Char)]))).takeWhile
        (fun l2 => (headerPath l2).isNone)
      = ([] : List Char) ::
        ("```".data ++ detectLanguageTag e.rel.data) ::
        (cls1 ++ fe :: (cls2 ++
          ["```".data, ([] : List Char), "---".data, ([] : List Char)])) := by
    apply takeWhile_all
    intro x hx
    rw [htfree x hx]
    rfl
  have hYnb : ∀ l ∈ ([] : List Char) ::
      ("```".data ++ detectLanguageTag e.rel.data) ::
      (cls1 ++ fe :: (cls2 ++ ["```".data, ([] : List Char), "---".data])),
      noBreakL l := by
    intro l hl
    rcases List.mem_cons.mp hl with hl | hl
    · subst hl; intro c hc2; simp at hc2
    rcases List.mem_cons.mp hl with hl | hl
    · subst hl; exact (detectLanguageTag_spec e.rel.data).2.2.2.2
    rcases List.mem_append.mp hl with hl | hl
    · exact (h1 l hl).2.2
    rcases List.mem_cons.mp hl with hl | hl
    · subst hl; exact hfnb
    rcases List.mem_append.mp hl with hl | hl
    · exact (h2 l hl).2
    rcases List.mem_cons.mp hl with hl | hl
    · subst hl; decide
    rcases List.mem_cons.mp hl with hl | hl
    · subst hl; intro c hc2; simp at hc2
    · rw [List.mem_singleton] at hl; subst hl; decide
  have hEC : extractContent ('\n' :: nlJoin (([] : List Char) ::
      ("```".data ++ detectLanguageTag e.rel.data) ::
      (cls1 ++ fe :: (cls2 ++
        ["```".data, ([] : List Char), "---".data, ([] : List Char)]))))
      = nlJoin cls1 := by
    have hTY : ([] : List Char) ::
        ("```".data ++ detectLanguageTag e.rel.data) ::
        (cls1 ++ fe :: (cls2 ++
          ["```".data, ([] : List Char), "---".data, ([] : List Char)]))
        = (([] : List Char) ::
            ("```".data ++ detectLanguageTag e.rel.data) ::
            (cls1 ++ fe :: (cls2 ++ ["```".data, ([] : List Char), "---".data])))
          ++ [([] : List Char)] := by
      simp
    rw [hTY, nlJoin_append_single (by simp), ← joinLF_eq_nlJoin (by simp)]
    rw [extractContent, pySplitlines_cons_nl_joinLF hYnb]
    rw [scanFence_cons_false_skip (by decide), scanFence_cons_false_skip (by decide),
      scanFence_cons_false_start (detectLanguageTag_spec e.rel.data).2.1,
      scanFence_collect (fun l hl => (h1 l hl).2.1),
      scanFence_cons_true_end hfe, List.append_nil]
  show ((parseDocLC (renderLC rootParts [e] zipB)).map
      (fun pc => ((⟨pc.1⟩ : String), (⟨pc.2⟩ : String)))).head?
    = some (e.rel, (⟨nlJoin cls1⟩ : String))
  rw [parseDocLC, hlines, parseLinesLC_skip hPfree, hsec0,
    parseLinesLC_cons_some (headerPath_render hne hstrip), htk, if_pos rfl,
    if_neg (by simp), hEC]
  rfl

/-- C5, witness: the content `"keep\n```\nlost"` comes back as `"keep"` —
truncated at the embedded fence-end line, the rest lost. -/
theorem c5_fence_end_truncation_witness :
    (parseDocument (renderMarkdown ["proj"]
        [⟨"a.txt", "keep\n```\nlost", true⟩] false)).head?
      = some ("a.txt", "keep") := by
  rw [c5_fence_end_truncation ["proj"] ⟨"a.txt", "keep\n```\nlost", true⟩ false
    ["keep".data] "```".data ["lost".data]
    (by decide) (by decide) (by decide) (by decide) (by decide) (by decide)
    (by decide) (by decide) (by decide) (by decide) (by decide)]
  rfl
